import Mathlib

/-!
# Verification of the just-latex fragment-rendering pipeline

A shallow embedding of the core of `src/main.rs` and `src/svg_utils.rs`:
the style model, fragment collection and deduplication, the LaTeX source
assembler with line mappings, the glyph-box folding into per-page regions,
the y-range refinement, the font name-table patcher, and the Pandoc-AST
tree walker with its empty-document short circuit.

Machine floats (`f64`) are modelled by `ℚ`; byte buffers by `List Nat`
with reads normalized modulo 256; JSON values by an inductive `JValue`.
-/

set_option maxHeartbeats 1000000

namespace JustLatex

/-! ## Style model (main.rs, `StyleElement` / `Style`) -/

inductive StyleElement where
  | header (level : Nat)
  | quote
  | strong
  | emph
  deriving DecidableEq, Repr

/-- `Style` from main.rs: either the plain base style or a style extended by
one element.  `Rc` sharing only affects performance, not equality. -/
inductive Style where
  | plain
  | fancy (base : Style) (this : StyleElement)
  deriving DecidableEq, Repr

def Style.push (s : Style) (new : StyleElement) : Style :=
  .fancy s new

/-- Template configuration (config.rs `TemplateConfig`): the fields used by
`Style::template` and `generate_latex_with_line_mappings`. -/
structure TemplateConfig where
  placeholder : String
  inline_math : String
  inline_math_inner : String
  display_math : String
  header : List String
  quote : String
  strong : String
  emph : String

/-- `Style::template` from main.rs.  The Rust indexes
`config.header[level - 1]`, which panics when out of range; the embedding
totalizes that panic with `getD _ ""`. -/
def Style.template (s : Style) (config : TemplateConfig) : String :=
  match s with
  | .plain => config.inline_math_inner
  | .fancy base this =>
    let base_template := base.template config
    let this_template :=
      match this with
      | .header level => config.header.getD (level - 1) ""
      | .quote => config.quote
      | .strong => config.strong
      | .emph => config.emph
    this_template.replace config.placeholder base_template

/-! ## JSON values (serde_json `Value`) -/

/-- Pandoc JSON AST values, as `serde_json::Value`.  Numbers are modelled
by integers (the walker only reads the `u64` header level). -/
inductive JValue where
  | null
  | bool (b : Bool)
  | num (n : Int)
  | str (s : String)
  | arr (xs : List JValue)
  | obj (fields : List (String × JValue))

/-- `value[key]` on serde_json values: field lookup on objects, `Null`
otherwise or when missing. -/
def JValue.jindex : JValue → String → JValue
  | .obj fields, k =>
    match fields.find? (fun p => p.1 = k) with
    | some p => p.2
    | none => .null
  | _, _ => .null

/-- `value[i]` on serde_json values: element lookup on arrays, `Null`
otherwise or out of range. -/
def JValue.jidx : JValue → Nat → JValue
  | .arr xs, i => xs.getD i .null
  | _, _ => .null

def JValue.as_str : JValue → Option String
  | .str s => some s
  | _ => none

def JValue.as_u64 : JValue → Option Nat
  | .num n => if 0 ≤ n then some n.toNat else none
  | _ => none

def JValue.as_array : JValue → Option (List JValue)
  | .arr xs => some xs
  | _ => none

/-- Helper for `JValue.jset`: update the first binding of a key in an
association list, appending when missing. -/
def setAssoc : List (String × JValue) → String → JValue → List (String × JValue)
  | [], k, x => [(k, x)]
  | (k1, v) :: rest, k, x =>
    if k1 = k then (k, x) :: rest else (k1, v) :: setAssoc rest k x

/-- In-place update of an object field (`tree["blocks"] = ...`).  Only ever
reached on objects in the modelled code paths. -/
def JValue.jset : JValue → String → JValue → JValue
  | .obj fields, k, x => .obj (setAssoc fields k x)
  | v, _, _ => v

/-! ## Rust string primitives

Rust's `str::trim_end`, `str::trim_start`, `str::trim` and
`str::starts_with`, modelled over the character list of a `String` (Rust
trims `char::is_whitespace` characters; Lean's `Char.isWhitespace` plays
that role).  Defined from scratch so they evaluate inside the kernel. -/

/-- `str::trim_end`. -/
def trimEnd (s : String) : String :=
  ⟨(s.data.reverse.dropWhile Char.isWhitespace).reverse⟩

/-- `str::trim_start`. -/
def trimStart (s : String) : String :=
  ⟨s.data.dropWhile Char.isWhitespace⟩

/-- `str::trim`. -/
def rustTrim (s : String) : String :=
  trimStart (trimEnd s)

/-- `str::starts_with`. -/
def rustStartsWith (s pre : String) : Bool :=
  pre.data.isPrefixOf s.data

/-! ## Fragments (main.rs `Fragment`, `FragmentType`, `FragmentNodeRef`) -/

/-- `FragmentNodeRef`: a back-reference into the document tree.  The Rust
holds `&mut Value`; the embedding records the referenced node value and
whether it is an inline or a block reference. -/
inductive NodeRef where
  | inline (v : JValue)
  | block (v : JValue)

inductive FragmentType where
  | inlineMath (style : Style)
  | displayMath
  | rawBlock
  | dontShow

structure Fragment where
  ty : FragmentType
  src : String
  refs : List NodeRef

/-- Does the fragment collection key of `f` match inline-math style `st`
with (already trimmed) source `s`?  This is the guard of the dedup loop in
`FragmentRenderer::add_fragment`. -/
def keyMatch (st : Style) (s : String) (f : Fragment) : Prop :=
  match f.ty with
  | .inlineMath st2 => st2 = st ∧ f.src = s
  | _ => False

instance (st : Style) (s : String) (f : Fragment) : Decidable (keyMatch st s f) := by
  unfold keyMatch
  cases f.ty <;> simp <;> infer_instance

/-- The dedup loop of `add_fragment`: push `r` onto the refs of the first
fragment matching the key, if any. -/
def pushToFirst (st : Style) (s : String) (r : NodeRef) :
    List Fragment → Option (List Fragment)
  | [] => none
  | f :: fs =>
    if keyMatch st s f then
      some ({ f with refs := f.refs ++ [r] } :: fs)
    else
      (pushToFirst st s r fs).map (f :: ·)

/-- `FragmentRenderer::add_fragment` from main.rs. -/
def addFragment (fs : List Fragment) (ty : FragmentType) (src : String)
    (node_ref : NodeRef) : List Fragment :=
  match ty with
  | .inlineMath st =>
    let s := rustTrim src
    match pushToFirst st s node_ref fs with
    | some fs2 => fs2
    | none => fs ++ [{ ty := ty, src := s, refs := [node_ref] }]
  | _ => fs ++ [{ ty := ty, src := rustTrim src, refs := [node_ref] }]

/-- A sequence of `add_fragment` calls starting from the empty fragment
list of `FragmentRenderer::new`. -/
def runAdds (calls : List (FragmentType × String × NodeRef)) : List Fragment :=
  calls.foldl (fun fs c => addFragment fs c.1 c.2.1 c.2.2) []

/-! ## Source assembler (main.rs `generate_latex_with_line_mappings`) -/

/-- `str::lines().count()` in Rust: zero for the empty string; a trailing
newline does not open a new line. -/
def lineCount (s : String) : Nat :=
  if s.data.isEmpty then 0
  else s.data.count '\n' + (if s.data.getLast? = some '\n' then 0 else 1)

/-- Full configuration (config.rs `Config`): the fields consumed by the
modelled pipeline. -/
structure Config where
  preamble : String
  postamble : String
  template : TemplateConfig
  mode : String
  y_range_tol : ℚ
  y_range_margin : ℚ
  baseline_rise : ℚ
  extra_style_inline : String
  extra_style_display : String

/-- Template expansion of one fragment, from the body of the loop in
`generate_latex_with_line_mappings`. -/
def expandFragment (cfg : Config) (f : Fragment) : String :=
  match f.ty with
  | .inlineMath style =>
    let inner := (style.template cfg.template).replace cfg.template.placeholder f.src
    cfg.template.inline_math.replace cfg.template.placeholder inner
  | .displayMath => cfg.template.display_math.replace cfg.template.placeholder f.src
  | .rawBlock | .dontShow => f.src

/-- The loop of `generate_latex_with_line_mappings`, written recursively:
given the running line counter, return the remaining output text and the
recorded line ranges (half-open, as Rust `start..end`). -/
def genLoop (cfg : Config) : Nat → List Fragment → String × List (Nat × Nat)
  | _, [] => ("", [])
  | current_line, f :: fs =>
    let expanded := trimEnd (expandFragment cfg f)
    let start_line := current_line
    let current_line := current_line + lineCount expanded
    let rest := genLoop cfg (current_line + 1) fs
    (expanded ++ "\n\n" ++ rest.1, (start_line, current_line) :: rest.2)

/-- `FragmentRenderer::generate_latex_with_line_mappings` from main.rs. -/
def generate_latex_with_line_mappings (cfg : Config) (fragments : List Fragment) :
    String × List (Nat × Nat) :=
  let preamble_trimmed := trimEnd cfg.preamble
  let body := genLoop cfg (lineCount preamble_trimmed + 1) fragments
  (preamble_trimmed ++ "\n" ++ body.1 ++ cfg.postamble, body.2)

/-! ## Glyph boxes and per-page regions (main.rs `render_with_latex`) -/

/-- A SyncTeX glyph box (synctex.rs `TexBox`, consumed in main.rs): page
number plus horizontal/vertical position, width, height and depth in TeX
units.  `f64` coordinates are modelled by `ℚ`; the Rust wraps them in
`OrderedFloat` so that boxes can be hashed and compared by all five
numeric fields, which `DecidableEq` mirrors. -/
structure GlyphBox where
  page : Nat
  h : ℚ
  v : ℚ
  width : ℚ
  height : ℚ
  depth : ℚ
  deriving DecidableEq, Repr

/-- The per-page `Region` struct local to `render_with_latex`. -/
structure Region where
  x_range : ℚ × ℚ
  y_range : ℚ × ℚ
  baseline : ℚ
  baseline_width : ℚ
  deriving DecidableEq, Repr

/-- The zero-area threshold `1e-6` of main.rs. -/
def zeroAreaEps : ℚ := 1 / 1000000

def initRegion (tb : GlyphBox) : Region :=
  { x_range := (tb.h, tb.h + tb.width)
    y_range := (tb.v - tb.height, tb.v + tb.depth)
    baseline := tb.v
    baseline_width := tb.width }

def updateRegion (r : Region) (tb : GlyphBox) : Region :=
  { x_range := (min r.x_range.1 tb.h, max r.x_range.2 (tb.h + tb.width))
    y_range := (min r.y_range.1 (tb.v - tb.height), max r.y_range.2 (tb.v + tb.depth))
    baseline := if r.baseline_width < tb.width then tb.v else r.baseline
    baseline_width := if r.baseline_width < tb.width then tb.width else r.baseline_width }

/-- `regions.entry(tb.page).and_modify(...).or_insert_with(...)` on a
`BTreeMap` modelled as an association list sorted by ascending page. -/
def insertBox : List (Nat × Region) → GlyphBox → List (Nat × Region)
  | [], tb => [(tb.page, initRegion tb)]
  | (p, r) :: rest, tb =>
    if tb.page < p then (tb.page, initRegion tb) :: (p, r) :: rest
    else if tb.page = p then (p, updateRegion r tb) :: rest
    else (p, r) :: insertBox rest tb

/-- State of the box fold: the per-page regions of the current fragment and
the run-global `seen_boxes` set (a `HashSet`, modelled as a list used only
through membership and insertion). -/
abbrev RegionState := List (Nat × Region) × List GlyphBox

/-- One iteration of the inner box loop of `render_with_latex`: skip
zero-area boxes, skip boxes already seen, otherwise record the box as seen
and fold it into its page's region. -/
def stepBox (st : RegionState) (tb : GlyphBox) : RegionState :=
  let area := tb.width * (tb.height + tb.depth)
  if area ≤ zeroAreaEps then st
  else if tb ∈ st.2 then st
  else (insertBox st.1 tb, tb :: st.2)

/-- The two nested loops of `render_with_latex` that build the regions of
one fragment: all lines of the fragment's range (`start..stop`), all boxes
returned by the SyncTeX query for each line. -/
def computeRegions (query : Nat → List GlyphBox) (range : Nat × Nat)
    (seen : List GlyphBox) : RegionState :=
  (List.range' range.1 (range.2 - range.1)).foldl
    (fun st line => (query line).foldl stepBox st) ([], seen)

/-! ## SVG bbox refinement (svg_utils.rs `refine_y_range`) -/

/-- A `usvg::PathBbox`, of which only the vertical extent is consumed by
`refine_y_range`. -/
structure PathBbox where
  top : ℚ
  bottom : ℚ
  deriving DecidableEq, Repr

/-- The loop body of `refine_y_range`: `lo`/`hi` are the tolerance-enlarged
bounds; the accumulator is `(new_y_min, new_y_max)`, with the untouched
`f64::MAX`/`f64::MIN` sentinel state modelled by `none`. -/
def refineStep (lo hi : ℚ) (acc : Option (ℚ × ℚ)) (bbox : PathBbox) :
    Option (ℚ × ℚ) :=
  if max lo bbox.top ≤ min hi bbox.bottom then
    match acc with
    | none => some (bbox.top, bbox.bottom)
    | some (a, b) => some (min a bbox.top, max b bbox.bottom)
  else acc

/-- `refine_y_range` from svg_utils.rs.  The `f64::MAX` sentinel detecting
that no bbox intersected is modelled by an `Option` accumulator. -/
def refine_y_range (bboxes : List PathBbox) (y_min y_max tol : ℚ) : ℚ × ℚ :=
  let y_min := y_min - tol
  let y_max := y_max + tol
  match bboxes.foldl (refineStep y_min y_max) none with
  | none => (y_min + tol, y_max - tol)
  | some r => r

/-- Whether a bbox intersects the tolerance-enlarged vertical range: the
guard inside the `refine_y_range` loop. -/
def bboxHits (y_min y_max tol : ℚ) (bbox : PathBbox) : Prop :=
  max (y_min - tol) bbox.top ≤ min (y_max + tol) bbox.bottom

instance (y_min y_max tol : ℚ) (bbox : PathBbox) :
    Decidable (bboxHits y_min y_max tol bbox) := by
  unfold bboxHits; infer_instance

/-! ## Per-region markup (the region loop of `render_with_latex`) -/

/-- `TEX2SVG_SCALING = 72.0 / 72.27` from main.rs. -/
def TEX2SVG_SCALING : ℚ := 72 / (7227 / 100)

/-- The y-range a region ends with: refined through the page's leaf bboxes
for display/raw fragments only, then expanded by the configured margin on
both sides (lines 421-430 of main.rs). -/
def finalYRange (ty : FragmentType) (bboxes : List PathBbox) (tol margin : ℚ)
    (y_range : ℚ × ℚ) : ℚ × ℚ :=
  let y_range :=
    match ty with
    | .displayMath | .rawBlock => refine_y_range bboxes y_range.1 y_range.2 tol
    | _ => y_range
  (y_range.1 - margin, y_range.2 + margin)

/-- Rust `format!` with precision `.2`, over `ℚ`: the value rounded to two
decimal places and printed with exactly two fractional digits. -/
def fmt2 (q : ℚ) : String :=
  let n : Int := Int.floor (q * 100 + 1 / 2)
  let m := n.natAbs
  (if n < 0 then "-" else "") ++ toString (m / 100) ++ "." ++
    (if m % 100 < 10 then "0" else "") ++ toString (m % 100)

/-- One `<img>` reference for one region, from the `formatdoc!` template in
`render_with_latex`.  `viewBoxes` holds the per-page view-box origins of the
parsed SVGs (consulted in pdf mode only) and `classNames` the per-page
content-derived class names. -/
def imgFor (cfg : Config) (viewBoxes : List (ℚ × ℚ)) (classNames : List String)
    (bboxes : List (List PathBbox)) (ty : FragmentType) (src : String)
    (pr : Nat × Region) : String :=
  let page := pr.1
  let r := pr.2
  let svg_idx := page - 1
  let base := if cfg.mode = "pdf" then viewBoxes.getD svg_idx (0, 0) else (0, 0)
  let y_range := (r.y_range.1 * TEX2SVG_SCALING + base.2,
                  r.y_range.2 * TEX2SVG_SCALING + base.2)
  let x_range := (r.x_range.1 * TEX2SVG_SCALING + base.1,
                  r.x_range.2 * TEX2SVG_SCALING + base.1)
  let baseline := r.baseline * TEX2SVG_SCALING + base.2
  let y_range := finalYRange ty (bboxes.getD svg_idx [])
    cfg.y_range_tol cfg.y_range_margin y_range
  let depth : ℚ :=
    match ty with
    | .inlineMath _ => y_range.2 - baseline
    | _ => 0
  let extra_style :=
    match ty with
    | .inlineMath _ =>
      "top:" ++ fmt2 (depth - cfg.baseline_rise) ++ "pt;margin-top:" ++
        fmt2 (cfg.baseline_rise - depth) ++ "pt;position:relative;" ++
        cfg.extra_style_inline
    | _ => cfg.extra_style_display
  "<img src=\"#svgView(viewBox(" ++ fmt2 x_range.1 ++ "," ++ fmt2 y_range.1 ++
    "," ++ fmt2 (x_range.2 - x_range.1) ++ "," ++ fmt2 (y_range.2 - y_range.1) ++
    "))\"\n     class=\"" ++ classNames.getD svg_idx "" ++ " jl-" ++
    (match ty with | .inlineMath _ => "inline" | _ => "display") ++
    "\" alt = \"" ++
    (((src.replace "&" "&amp;").replace "<" "&lt;").replace ">" "&gt;") ++
    "\"\n     style=\"width:" ++ fmt2 (x_range.2 - x_range.1) ++ "pt;height:" ++
    fmt2 (y_range.2 - y_range.1) ++ "pt;\n     display:inline;" ++ extra_style ++
    "\">"

/-- Debug rendering of the region page list, as in the multi-page bail
message (`{:?}` of `regions.keys().collect::<Vec<_>>()`). -/
def pagesRepr (regions : List (Nat × Region)) : String :=
  "[" ++ String.intercalate ", " (regions.map (fun pr => toString pr.1)) ++ "]"

/-- `matches!(item.ty, FragmentType::InlineMath(_))`. -/
def isInlineTy : FragmentType → Bool
  | .inlineMath _ => true
  | _ => false

/-- The per-fragment body of the region loop in `render_with_latex` for a
non-`DontShow` fragment: build the regions from the SyncTeX queries, fail
when none exist or when an inline fragment spans several pages, otherwise
emit the fragment's HTML.  Returns the HTML together with the updated
global `seen_boxes` set. -/
def renderFragment (cfg : Config) (viewBoxes : List (ℚ × ℚ))
    (classNames : List String) (bboxes : List (List PathBbox))
    (query : Nat → List GlyphBox) (seen : List GlyphBox)
    (ty : FragmentType) (src : String) (range : Nat × Nat) :
    Except String (String × List GlyphBox) :=
  let st := computeRegions query range seen
  let regions := st.1
  if regions.isEmpty then
    .error ("no boxes for " ++ src)
  else if isInlineTy ty ∧ 1 < regions.length then
    .error ("inline fragments \x27" ++ src ++ "\x27 spans multiple pages " ++
      pagesRepr regions ++ " (did you disable page numbering?)")
  else
    let imgs := regions.map (imgFor cfg viewBoxes classNames bboxes ty src)
    let html :=
      match ty with
      | .inlineMath _ => String.intercalate "" imgs
      | .displayMath | .rawBlock =>
        "<div class=\"jl-display-div\" style=\"text-align:center;\">" ++
          String.intercalate "<br>" imgs ++ "</div>"
      | .dontShow => ""  -- unreachable!() in the source: the caller skips DontShow
    .ok (html, st.2)

/-! ## Font patcher (svg_utils.rs `patch_font`) -/

/-- Read one byte of a font buffer.  Bytes are `u8`; reads normalize the
stored `Nat` modulo 256 and out-of-range reads yield 0 (the Rust panics on
out-of-range slicing; the claims are settled under in-range hypotheses). -/
def byteAt (bs : List Nat) (i : Nat) : Nat :=
  bs.getD i 0 % 256

/-- `u16::from_be_bytes` at an offset. -/
def read_u16 (bs : List Nat) (off : Nat) : Nat :=
  byteAt bs off * 256 + byteAt bs (off + 1)

/-- `u32::from_be_bytes` at an offset. -/
def read_u32 (bs : List Nat) (off : Nat) : Nat :=
  ((byteAt bs off * 256 + byteAt bs (off + 1)) * 256 + byteAt bs (off + 2)) * 256 +
    byteAt bs (off + 3)

/-- `u16::to_be_bytes`. -/
def u16be (n : Nat) : List Nat :=
  [n / 256 % 256, n % 256]

/-- `u32::to_be_bytes`. -/
def u32be (n : Nat) : List Nat :=
  [n / 16777216 % 256, n / 65536 % 256, n / 256 % 256, n % 256]

/-- `buf[i..i+vs.len()].copy_from_slice(vs)`: overwrite bytes starting at
`i` (out-of-range positions are ignored, where the Rust would panic). -/
def writeBytes : List Nat → Nat → List Nat → List Nat
  | bs, _, [] => bs
  | bs, i, v :: vs => writeBytes (bs.set i v) (i + 1) vs

/-- The byte string `"name"`. -/
def nameTag : List Nat := [0x6e, 0x61, 0x6d, 0x65]

/-- The table-directory scan of `patch_font`: returns
`(table_dir_entry_offset, table_offset, table_length)`; the last directory
entry tagged `name` wins, all three are 0 when none matches. -/
def findNameTable (font : List Nat) : Nat × Nat × Nat :=
  let n_tables := read_u16 font 4
  (List.range n_tables).foldl
    (fun acc i =>
      let off := i * 16 + 12
      if ((font.drop off).take 4).map (· % 256) = nameTag then
        (off, read_u32 font (off + 8), read_u32 font (off + 12))
      else acc)
    (0, 0, 0)

/-- The record scan of `patch_font`: `(has_name, has_post)` over the
`n_records` name records starting at `offset`, counting only Unicode (0)
or Macintosh (1) platform records with name ID 1 (family) or 6
(postscript). -/
def nameFlags (font : List Nat) (offset n_records : Nat) : Bool × Bool :=
  (List.range n_records).foldl
    (fun fl i =>
      let record_offset := offset + 6 + 12 * i
      let platform_id := read_u16 font record_offset
      let name_id := read_u16 font (record_offset + 6)
      if platform_id = 1 ∨ platform_id = 0 then
        if name_id = 1 then (true, fl.2)
        else if name_id = 6 then (fl.1, true)
        else fl
      else fl)
    (false, false)

/-- `patch_font` from svg_utils.rs over byte buffers.  `family` is the
ASCII family-name string as bytes. -/
def patch_font (font : List Nat) (family : List Nat) : Except String (List Nat) :=
  let scan := findNameTable font
  if scan.2.2 = 0 then .error "font missing name table"
  else
    let table_dir_entry_offset := scan.1
    let offset := scan.2.1
    let length := scan.2.2
    let format := read_u16 font offset
    if format ≠ 0 then .error "wrong name table version in font"
    else
      let n_records := read_u16 font (offset + 2)
      let string_offset := offset + read_u16 font (offset + 4)
      let string := (font.drop string_offset).take (offset + length - string_offset)
      let flags := nameFlags font offset n_records
      let has_name := flags.1
      let has_post := flags.2
      let result := font
      let new_offset := result.length
      let result := result ++ (font.drop offset).take (6 + 12 * n_records)
      let nsr :=
        if ¬has_name ∨ ¬has_post then
          let name_offset := string.length % 65536
          let name_length := family.length % 65536
          let string := string ++ family
          let rn :=
            if ¬has_name then
              (result ++ [0, 1, 0, 0, 0, 0, 0, 1] ++ u16be name_length ++
                u16be name_offset, n_records + 1)
            else (result, n_records)
          let rn :=
            if ¬has_post then
              (rn.1 ++ [0, 1, 0, 0, 0, 0, 0, 6] ++ u16be name_length ++
                u16be name_offset, rn.2 + 1)
            else rn
          (rn.1, string, rn.2)
        else (result, string, n_records)
      let result := nsr.1 ++ nsr.2.1
      let n_records := nsr.2.2
      let result := writeBytes result (new_offset + 2) (u16be (n_records % 65536))
      let result := writeBytes result (new_offset + 4)
        (u16be ((6 + 12 * (n_records % 65536)) % 65536))
      let result := writeBytes result (table_dir_entry_offset + 8)
        (u32be (new_offset % 4294967296))
      let new_table_length := result.length - new_offset
      let result := writeBytes result (table_dir_entry_offset + 12)
        (u32be (new_table_length % 4294967296))
      .ok result

/-! ## Tree walker (main.rs `walk_*` methods)

The Rust walker mutates a fragment list behind `&mut self` and stores
`&mut Value` back-references; the embedding threads the fragment list
explicitly and records the referenced node inside the `NodeRef`. -/

theorem JValue.as_array_some {v : JValue} {xs : List JValue}
    (h : v.as_array = some xs) : v = .arr xs := by
  cases v <;> simp [JValue.as_array] at h
  simp [h]

theorem JValue.jindex_as_str_obj {v : JValue} {k : String} {t : String}
    (h : (v.jindex k).as_str = some t) : ∃ fs, v = .obj fs := by
  cases v <;> simp [JValue.jindex, JValue.as_str] at h
  exact ⟨_, rfl⟩

theorem JValue.one_le_sizeOf (v : JValue) : 1 ≤ sizeOf v := by
  cases v <;> simp_arith

theorem list_sizeOf_pos {α : Type _} [SizeOf α] (xs : List α) : 0 < sizeOf xs := by
  cases xs <;> simp_arith

theorem JValue.size_jindex_lt (fs : List (String × JValue)) (k : String) :
    sizeOf ((JValue.obj fs).jindex k) < sizeOf (JValue.obj fs) := by
  have hpos : 0 < sizeOf fs := list_sizeOf_pos fs
  cases hf : fs.find? (fun p => p.1 = k) with
  | none =>
    simp only [JValue.jindex, hf]
    simp_arith
    omega
  | some p =>
    have hmem : p ∈ fs := List.mem_of_find?_eq_some hf
    have h1 : sizeOf p < sizeOf fs := List.sizeOf_lt_of_mem hmem
    have h2 : sizeOf p.2 < sizeOf p := by
      obtain ⟨a, b⟩ := p
      simp_arith
    simp only [JValue.jindex, hf]
    simp_arith
    omega

theorem JValue.size_jidx_le (v : JValue) (i : Nat) :
    sizeOf (v.jidx i) ≤ sizeOf v := by
  cases v with
  | arr xs =>
    show sizeOf (xs.getD i JValue.null) ≤ sizeOf (JValue.arr xs)
    have hpos : 0 < sizeOf xs := list_sizeOf_pos xs
    by_cases hlt : i < xs.length
    · rw [List.getD_eq_getElem xs JValue.null hlt]
      have h1 : sizeOf xs[i] < sizeOf xs := List.sizeOf_lt_of_mem (List.getElem_mem hlt)
      simp only [JValue.arr.sizeOf_spec]
      omega
    · rw [List.getD_eq_default xs JValue.null (Nat.le_of_not_lt hlt)]
      simp only [JValue.arr.sizeOf_spec, JValue.null.sizeOf_spec]
      omega
  | null => simp [JValue.jidx]
  | bool b => simp [JValue.jidx]
  | num n => simp [JValue.jidx]
  | str s => simp [JValue.jidx]
  | obj fs =>
    have hpos : 0 < sizeOf fs := list_sizeOf_pos fs
    simp only [JValue.jidx, JValue.obj.sizeOf_spec, JValue.null.sizeOf_spec]
    omega

theorem JValue.size_jindex_jidx_lt (fs : List (String × JValue)) (k : String) (i : Nat) :
    sizeOf (((JValue.obj fs).jindex k).jidx i) < sizeOf (JValue.obj fs) :=
  lt_of_le_of_lt (JValue.size_jidx_le _ i) (JValue.size_jindex_lt fs k)

theorem JValue.sizeOf_drop_le (xs : List JValue) (n : Nat) :
    sizeOf (xs.drop n) ≤ sizeOf xs := by
  induction xs generalizing n with
  | nil => cases n <;> simp
  | cons x rest ih =>
    cases n with
    | zero => simp
    | succ m =>
      have h1 := ih m
      have hx := JValue.one_le_sizeOf x
      simp only [List.drop_succ_cons]
      simp_arith
      omega

mutual

/-- `FragmentRenderer::walk_block`. -/
def walk_block (v : JValue) (style : Style) (fs : List Fragment) :
    Except String (List Fragment) :=
  match h : (v.jindex "t").as_str with
  | none => .error "reading type of Block"
  | some t =>
    if t = "Para" then walk_inlines (v.jindex "c") "Para" style fs
    else if t = "Plain" then walk_inlines (v.jindex "c") "Plain" style fs
    else if t = "LineBlock" then
      walk_list_of_inlines (v.jindex "c") "LineBlock" style fs
    else if t = "Header" then
      match ((v.jindex "c").jidx 0).as_u64 with
      | none => .error "reading level of Header"
      | some level =>
        walk_inlines ((v.jindex "c").jidx 2) "Header"
          (style.push (.header level)) fs
    else if t = "BlockQuote" then
      walk_blocks (v.jindex "c") "BlockQuote" (style.push .quote) fs
    else if t = "OrderedList" then
      walk_list_of_blocks ((v.jindex "c").jidx 1) "OrderedList" style fs
    else if t = "BulletList" then
      walk_list_of_blocks (v.jindex "c") "BulletList" style fs
    else if t = "Div" then
      walk_list_of_blocks ((v.jindex "c").jidx 1) "Div" style fs
    else if t = "RawBlock" then
      match ((v.jindex "c").jidx 0).as_str with
      | none => .error "reading format of RawBlock"
      | some fmt =>
        if fmt = "tex" then
          match ((v.jindex "c").jidx 1).as_str with
          | none => .error "reading source of RawBlock"
          | some text =>
            .ok (addFragment fs
              (if rustStartsWith (trimStart text) "%dontshow" then .dontShow else .rawBlock)
              text (.block v))
        else .ok fs
    else if t = "Table" then
      match harr2 : (v.jindex "c").as_array with
      | none => .error "reading contents of Table"
      | some contents => walk_table_contents contents 0 style fs
    else .ok fs
termination_by sizeOf v
decreasing_by
  all_goals simp_wf
  all_goals obtain ⟨fs0, rfl⟩ := JValue.jindex_as_str_obj h
  all_goals first
    | exact JValue.size_jindex_lt _ _
    | exact JValue.size_jindex_jidx_lt _ _ _
    | (have h1 := JValue.as_array_some harr2
       have h2 := JValue.size_jindex_lt fs0 "c"
       rw [h1] at h2
       simp only [JValue.arr.sizeOf_spec] at h2
       omega)

/-- `FragmentRenderer::walk_inline`. -/
def walk_inline (v : JValue) (style : Style) (fs : List Fragment) :
    Except String (List Fragment) :=
  match h : (v.jindex "t").as_str with
  | none => .error "reading type of Inline"
  | some t =>
    if t = "Math" then
      match (((v.jindex "c").jidx 0).jindex "t").as_str with
      | none => .error "reading type of Math"
      | some mty =>
        match ((v.jindex "c").jidx 1).as_str with
        | none => .error "reading source of Math"
        | some text =>
          if mty = "InlineMath" then
            .ok (addFragment fs (.inlineMath style) text (.inline v))
          else if mty = "DisplayMath" then
            .ok (addFragment fs
              (if rustStartsWith (trimStart text) "%raw" then .rawBlock
               else if rustStartsWith (trimStart text) "%dontshow" then .dontShow
               else .displayMath)
              text (.inline v))
          else .error ("unknown math type " ++ mty)
    else if t = "Emph" then
      walk_inlines (v.jindex "c") "Emph" (style.push .emph) fs
    else if t = "Underline" then walk_inlines (v.jindex "c") "Underline" style fs
    else if t = "Strong" then
      walk_inlines (v.jindex "c") "Strong" (style.push .strong) fs
    else if t = "Strikeout" then walk_inlines (v.jindex "c") "Strikeout" style fs
    else if t = "Link" then walk_inlines ((v.jindex "c").jidx 1) "Link" style fs
    else if t = "Image" then walk_inlines ((v.jindex "c").jidx 1) "Image" style fs
    else .ok fs
termination_by sizeOf v
decreasing_by
  all_goals simp_wf
  all_goals obtain ⟨fs0, rfl⟩ := JValue.jindex_as_str_obj h
  all_goals first
    | exact JValue.size_jindex_lt _ _
    | exact JValue.size_jindex_jidx_lt _ _ _

/-- `FragmentRenderer::walk_blocks`. -/
def walk_blocks (v : JValue) (parent : String) (style : Style)
    (fs : List Fragment) : Except String (List Fragment) :=
  match harr : v.as_array with
  | none => .error ("reading " ++ parent ++ ".[Block]")
  | some xs => go_blocks xs style fs
termination_by sizeOf v
decreasing_by
  simp_wf
  obtain rfl := JValue.as_array_some harr
  simp_arith

/-- The block loop of `walk_blocks`. -/
def go_blocks (xs : List JValue) (style : Style) (fs : List Fragment) :
    Except String (List Fragment) :=
  match xs with
  | [] => .ok fs
  | x :: rest => do
    let fs ← walk_block x style fs
    go_blocks rest style fs
termination_by sizeOf xs
decreasing_by
  all_goals simp_wf
  all_goals simp_arith

/-- `FragmentRenderer::walk_list_of_blocks`. -/
def walk_list_of_blocks (v : JValue) (parent : String) (style : Style)
    (fs : List Fragment) : Except String (List Fragment) :=
  match harr : v.as_array with
  | none => .error ("reading " ++ parent ++ ".[[Block]]")
  | some xs => go_list_of_blocks xs parent style fs
termination_by sizeOf v
decreasing_by
  simp_wf
  obtain rfl := JValue.as_array_some harr
  simp_arith

/-- The loop of `walk_list_of_blocks`. -/
def go_list_of_blocks (xs : List JValue) (parent : String) (style : Style)
    (fs : List Fragment) : Except String (List Fragment) :=
  match xs with
  | [] => .ok fs
  | x :: rest => do
    let fs ← walk_blocks x parent style fs
    go_list_of_blocks rest parent style fs
termination_by sizeOf xs
decreasing_by
  all_goals simp_wf
  all_goals simp_arith

/-- `FragmentRenderer::walk_inlines`. -/
def walk_inlines (v : JValue) (parent : String) (style : Style)
    (fs : List Fragment) : Except String (List Fragment) :=
  match harr : v.as_array with
  | none => .error ("reading " ++ parent ++ ".[Inline]")
  | some xs => go_inlines xs style fs
termination_by sizeOf v
decreasing_by
  simp_wf
  obtain rfl := JValue.as_array_some harr
  simp_arith

/-- The inline loop of `walk_inlines`. -/
def go_inlines (xs : List JValue) (style : Style) (fs : List Fragment) :
    Except String (List Fragment) :=
  match xs with
  | [] => .ok fs
  | x :: rest => do
    let fs ← walk_inline x style fs
    go_inlines rest style fs
termination_by sizeOf xs
decreasing_by
  all_goals simp_wf
  all_goals simp_arith

/-- `FragmentRenderer::walk_list_of_inlines`. -/
def walk_list_of_inlines (v : JValue) (parent : String) (style : Style)
    (fs : List Fragment) : Except String (List Fragment) :=
  match harr : v.as_array with
  | none => .error ("reading " ++ parent ++ ".[[Inline]]")
  | some xs => go_list_of_inlines xs parent style fs

/-- The loop of `walk_list_of_inlines`. -/
def go_list_of_inlines (xs : List JValue) (parent : String) (style : Style)
    (fs : List Fragment) : Except String (List Fragment) :=
  match xs with
  | [] => .ok fs
  | x :: rest => do
    let fs ← walk_inlines x parent style fs
    go_list_of_inlines rest parent style fs
termination_by sizeOf xs
decreasing_by
  all_goals simp_wf
  all_goals simp_arith

/-- `FragmentRenderer::walk_rows`. -/
def walk_rows (v : JValue) (parent : String) (style : Style)
    (fs : List Fragment) : Except String (List Fragment) :=
  match harr : v.as_array with
  | none => .error ("reading " ++ parent ++ ".[Row]")
  | some rows => go_rows rows parent style fs
termination_by sizeOf v
decreasing_by
  simp_wf
  obtain rfl := JValue.as_array_some harr
  simp_arith

/-- The row loop of `walk_rows`. -/
def go_rows (rows : List JValue) (parent : String) (style : Style)
    (fs : List Fragment) : Except String (List Fragment) :=
  match rows with
  | [] => .ok fs
  | row :: rest =>
    match hc : (row.jidx 1).as_array with
    | none => .error ("reading " ++ parent ++ ".[Row].[Cell]")
    | some cells => do
      let fs ← go_cells cells style fs
      go_rows rest parent style fs
termination_by sizeOf rows
decreasing_by
  all_goals simp_wf
  all_goals try simp_arith
  all_goals try (have h1 := JValue.as_array_some hc
                 have h2 : sizeOf cells < sizeOf (JValue.jidx x 1) := by
                   rw [h1]; simp_arith
                 have h3 := JValue.size_jidx_le x 1
                 omega)

/-- The cell loop inside `walk_rows`. -/
def go_cells (cells : List JValue) (style : Style) (fs : List Fragment) :
    Except String (List Fragment) :=
  match cells with
  | [] => .ok fs
  | cell :: rest => do
    let fs ← walk_blocks (cell.jidx 4) "[Cell] of Row of TableHead of Table" style fs
    go_cells rest style fs
termination_by sizeOf cells
decreasing_by
  all_goals simp_wf
  all_goals try simp_arith
  all_goals try (have h1 := JValue.size_jidx_le x 4
                 omega)

/-- The enumerated loop over the `Table` node's contents in `walk_block`:
indices 1 (caption), 3 (head), 4 (bodies) and 5 (foot) are walked. -/
def walk_table_contents (contents : List JValue) (i : Nat) (style : Style)
    (fs : List Fragment) : Except String (List Fragment) :=
  match contents with
  | [] => .ok fs
  | content :: rest => do
    let fs ←
      if i = 1 then walk_blocks (content.jidx 1) "Table.Caption" style fs
      else if i = 3 then walk_rows (content.jidx 1) "Table.TableHead" style fs
      else if i = 4 then
        match ha : content.as_array with
        | none => .error "reading Table.[TableBody]"
        | some bodies => go_table_bodies bodies style fs
      else if i = 5 then walk_rows (content.jidx 1) "Table.TableFoot" style fs
      else .ok fs
    walk_table_contents rest (i + 1) style fs
termination_by sizeOf contents
decreasing_by
  all_goals simp_wf
  all_goals try simp_arith
  all_goals try (have h1 := JValue.size_jidx_le x 1
                 omega)
  all_goals try (have h1 := JValue.as_array_some ha
                 have h2 : sizeOf bodies < sizeOf x := by
                   rw [h1]; simp_arith
                 omega)

/-- The outer loop of the table-body arm (index 4) of `walk_block`. -/
def go_table_bodies (bodies : List JValue) (style : Style)
    (fs : List Fragment) : Except String (List Fragment) :=
  match bodies with
  | [] => .ok fs
  | body :: rest =>
    match hb : body.as_array with
    | none => .error "reading content of Table.[TableBody]"
    | some comps => do
      let fs ← go_body_rows (comps.drop 2) style fs
      go_table_bodies rest style fs
termination_by sizeOf bodies
decreasing_by
  all_goals simp_wf
  all_goals try simp_arith
  all_goals try (have h1 := JValue.as_array_some hb
                 have h2 : sizeOf (comps.drop 2) ≤ sizeOf comps :=
                   JValue.sizeOf_drop_le comps 2
                 have h3 : sizeOf comps < sizeOf x := by
                   rw [h1]; simp_arith
                 omega)

/-- The inner `skip(2)` loop of the table-body arm: each remaining
component is a row list walked by `walk_rows`. -/
def go_body_rows (rows : List JValue) (style : Style) (fs : List Fragment) :
    Except String (List Fragment) :=
  match rows with
  | [] => .ok fs
  | rows0 :: rest => do
    let fs ← walk_rows rows0 "Table.[TableBody].[Row]" style fs
    go_body_rows rest style fs
termination_by sizeOf rows
decreasing_by
  all_goals simp_wf
  all_goals simp_arith

end

/-! ## Pipeline prefix (main.rs `walk_and_create_final_node` and the
empty-document short-circuit of `render_with_latex`) -/

/-- The empty raw HTML block `json!({"t": "RawBlock", "c": ["html", ""]})`. -/
def dummyRawBlock : JValue :=
  .obj [("t", .str "RawBlock"), ("c", .arr [.str "html", .str ""])]

/-- The placeholder `json!({})` appended by `walk_and_create_final_node`. -/
def placeholderNode : JValue := .obj []

/-- Outcome of the pipeline prefix: either the run finished (no fragments,
so no external tool is ever invoked and the tree is final), or it proceeds
to the external compiler/converter stage with the collected fragments. -/
inductive RenderOutcome where
  | done (tree : JValue)
  | toRender (tree : JValue) (fragments : List Fragment)

/-- `walk_and_create_final_node` followed by the `fragments.is_empty()`
short-circuit at the top of `render_with_latex`: append the placeholder to
the outermost block sequence, walk every original block with the plain
style, and if no fragment was collected replace the placeholder by
`dummyRawBlock` and finish.  Everything after the short-circuit (the
external compiler, converter, SVG parsing, region reconstruction and
emission) happens only in the `toRender` outcome. -/
def render_prefix (tree : JValue) : Except String RenderOutcome :=
  match (tree.jindex "blocks").as_array with
  | none => .error "reading [blocks] of the Document"
  | some blocks => do
    let fs ← go_blocks blocks Style.plain []
    if fs.isEmpty then
      .ok (.done (tree.jset "blocks" (.arr (blocks ++ [dummyRawBlock]))))
    else
      .ok (.toRender (tree.jset "blocks" (.arr (blocks ++ [placeholderNode]))) fs)

/-! ## Lemmas about the box fold -/

theorem stepBox_of_area_le {st : RegionState} {tb : GlyphBox}
    (h : tb.width * (tb.height + tb.depth) ≤ zeroAreaEps) : stepBox st tb = st := by
  simp [stepBox, h]

theorem stepBox_of_seen {st : RegionState} {tb : GlyphBox}
    (h : tb ∈ st.2) : stepBox st tb = st := by
  simp only [stepBox]
  split_ifs <;> simp_all

theorem seen_mono (st : RegionState) (tb c : GlyphBox)
    (h : tb ∈ st.2) : tb ∈ (stepBox st c).2 := by
  simp only [stepBox]
  split_ifs <;> simp_all

theorem mem_seen_after (st : RegionState) (tb : GlyphBox)
    (h : ¬ tb.width * (tb.height + tb.depth) ≤ zeroAreaEps) :
    tb ∈ (stepBox st tb).2 := by
  simp only [stepBox]
  split_ifs <;> simp_all

theorem foldl_stepBox_skips_seen (tb : GlyphBox) :
    ∀ (bs : List GlyphBox) (st : RegionState), tb ∈ st.2 →
      bs.foldl stepBox st = (bs.filter (fun c => !decide (c = tb))).foldl stepBox st := by
  intro bs
  induction bs with
  | nil => intro st _; rfl
  | cons b rest ih =>
    intro st hmem
    by_cases hb : b = tb
    · subst hb
      have hf : List.filter (fun c => !decide (c = b)) (b :: rest) =
          List.filter (fun c => !decide (c = b)) rest := by simp
      rw [List.foldl_cons, stepBox_of_seen hmem, hf]
      exact ih st hmem
    · have hf : List.filter (fun c => !decide (c = tb)) (b :: rest) =
          b :: List.filter (fun c => !decide (c = tb)) rest := by simp [hb]
      rw [List.foldl_cons, hf, List.foldl_cons]
      exact ih (stepBox st b) (seen_mono st tb b hmem)

/-- C5.  Zero-area rejection: a glyph box with
`width * (height + depth) ≤ 1e-6` is discarded before folding — filtering
all such boxes out of every line query leaves the computed regions (and
the seen-box set) unchanged, so such a box never affects any Region's
x-range, y-range, baseline, or baseline width. -/
theorem C5_zero_area_rejection (query : Nat → List GlyphBox) (range : Nat × Nat)
    (seen : List GlyphBox) :
    computeRegions query range seen =
      computeRegions
        (fun line => (query line).filter
          (fun tb => !decide (tb.width * (tb.height + tb.depth) ≤ zeroAreaEps)))
        range seen := by
  unfold computeRegions
  generalize List.range' range.1 (range.2 - range.1) = lines
  induction lines generalizing seen with
  | nil => rfl
  | cons line rest ih =>
    simp only [List.foldl_cons]
    have hline : ∀ (bs : List GlyphBox) (st : RegionState),
        bs.foldl stepBox st =
          (bs.filter (fun tb => !decide (tb.width * (tb.height + tb.depth) ≤ zeroAreaEps))).foldl
            stepBox st := by
      intro bs
      induction bs with
      | nil => intro st; rfl
      | cons b rest2 ih2 =>
        intro st
        by_cases hb : b.width * (b.height + b.depth) ≤ zeroAreaEps
        · have hf : List.filter
              (fun tb => !decide (tb.width * (tb.height + tb.depth) ≤ zeroAreaEps))
              (b :: rest2) =
              List.filter
                (fun tb => !decide (tb.width * (tb.height + tb.depth) ≤ zeroAreaEps))
                rest2 := by simp [hb]
          rw [List.foldl_cons, stepBox_of_area_le hb, hf]
          exact ih2 st
        · have hf : List.filter
              (fun tb => !decide (tb.width * (tb.height + tb.depth) ≤ zeroAreaEps))
              (b :: rest2) =
              b :: List.filter
                (fun tb => !decide (tb.width * (tb.height + tb.depth) ≤ zeroAreaEps))
                rest2 := by simp [hb]
          rw [List.foldl_cons, hf, List.foldl_cons]
          exact ih2 (stepBox st b)
    rw [hline (query line) ([], seen)]
    -- the remaining lines: both folds continue from the same state
    have hgen : ∀ (st : RegionState),
        rest.foldl (fun st line => (query line).foldl stepBox st) st =
          rest.foldl (fun st line =>
            ((query line).filter
              (fun tb => !decide (tb.width * (tb.height + tb.depth) ≤ zeroAreaEps))).foldl
              stepBox st) st := by
      clear ih
      induction rest with
      | nil => intro st; rfl
      | cons l2 r2 ih3 =>
        intro st
        simp only [List.foldl_cons]
        rw [hline (query l2) st]
        exact ih3 _
    exact hgen _

/-- C6.  Glyph-box deduplication by identity: a box equal (in all five
numeric fields, which is equality of `GlyphBox`) to one folded earlier is
discarded.  Concretely: (1) a step on a box already in the seen set leaves
regions and seen set unchanged; (2) the seen set only grows, across
adjacent line queries and across fragments of the same run; (3) a surviving
box is recorded as seen by its own fold step; (4) once a box is in the
seen set, any later fold sequence gives the same result as the sequence
with every occurrence of that box removed, so it contributes to a Region's
extent only once. -/
theorem C6_box_dedup_by_identity (st : RegionState) (tb : GlyphBox) :
    (tb ∈ st.2 → stepBox st tb = st) ∧
    (∀ c : GlyphBox, tb ∈ st.2 → tb ∈ (stepBox st c).2) ∧
    (¬ tb.width * (tb.height + tb.depth) ≤ zeroAreaEps → tb ∈ (stepBox st tb).2) ∧
    (∀ bs : List GlyphBox, tb ∈ st.2 →
      bs.foldl stepBox st = (bs.filter (fun c => !decide (c = tb))).foldl stepBox st) :=
  ⟨fun h => stepBox_of_seen h,
   fun c h => seen_mono st tb c h,
   fun h => mem_seen_after st tb h,
   fun bs h => foldl_stepBox_skips_seen tb bs st h⟩

/-- Concrete instantiation of `C6_box_dedup_by_identity`: the same box fed
twice across two adjacent line queries contributes once. -/
theorem C6_box_dedup_witness :
    (stepBox (stepBox ([], []) ⟨1, 0, 0, 1, 1, 0⟩) ⟨1, 0, 0, 1, 1, 0⟩ =
      stepBox ([], []) ⟨1, 0, 0, 1, 1, 0⟩) ∧
    ⟨1, 0, 0, 1, 1, 0⟩ ∈ (stepBox (([], []) : RegionState) ⟨1, 0, 0, 1, 1, 0⟩).2 := by
  have h1 : ¬ (⟨1, 0, 0, 1, 1, 0⟩ : GlyphBox).width *
      ((⟨1, 0, 0, 1, 1, 0⟩ : GlyphBox).height + (⟨1, 0, 0, 1, 1, 0⟩ : GlyphBox).depth) ≤
        zeroAreaEps := by norm_num [zeroAreaEps]
  have hmem := (C6_box_dedup_by_identity ([], []) ⟨1, 0, 0, 1, 1, 0⟩).2.2.1 h1
  have hstep := (C6_box_dedup_by_identity
    (stepBox ([], []) ⟨1, 0, 0, 1, 1, 0⟩) ⟨1, 0, 0, 1, 1, 0⟩).1 hmem
  exact ⟨hstep, hmem⟩

/-! ## Baseline containment (C10) -/

/-- The baseline of a region lies inside its vertical range. -/
def regionWF (r : Region) : Prop :=
  r.y_range.1 ≤ r.baseline ∧ r.baseline ≤ r.y_range.2

/-- A glyph box with nonnegative ascent and descent. -/
def boxNonneg (tb : GlyphBox) : Prop :=
  0 ≤ tb.height ∧ 0 ≤ tb.depth

theorem initRegion_wf {tb : GlyphBox} (h : boxNonneg tb) :
    regionWF (initRegion tb) := by
  obtain ⟨h1, h2⟩ := h
  constructor <;> simp [initRegion] <;> linarith

theorem updateRegion_wf {r : Region} {tb : GlyphBox} (hr : regionWF r)
    (h : boxNonneg tb) : regionWF (updateRegion r tb) := by
  obtain ⟨h1, h2⟩ := h
  obtain ⟨hr1, hr2⟩ := hr
  unfold regionWF updateRegion
  dsimp only
  split_ifs with hw
  · constructor
    · calc min r.y_range.1 (tb.v - tb.height) ≤ tb.v - tb.height := min_le_right _ _
        _ ≤ tb.v := by linarith
    · calc tb.v ≤ tb.v + tb.depth := by linarith
        _ ≤ max r.y_range.2 (tb.v + tb.depth) := le_max_right _ _
  · constructor
    · calc min r.y_range.1 (tb.v - tb.height) ≤ r.y_range.1 := min_le_left _ _
        _ ≤ r.baseline := hr1
    · calc r.baseline ≤ r.y_range.2 := hr2
        _ ≤ max r.y_range.2 (tb.v + tb.depth) := le_max_left _ _

theorem insertBox_wf {regions : List (Nat × Region)} {tb : GlyphBox}
    (hall : ∀ p r, (p, r) ∈ regions → regionWF r) (h : boxNonneg tb) :
    ∀ p r, (p, r) ∈ insertBox regions tb → regionWF r := by
  induction regions with
  | nil =>
    intro p r hmem
    simp [insertBox] at hmem
    rw [hmem.2]
    exact initRegion_wf h
  | cons hd rest ih =>
    intro p r hmem
    obtain ⟨q, r0⟩ := hd
    simp only [insertBox] at hmem
    split_ifs at hmem with h1 h2
    · rcases List.mem_cons.mp hmem with heq | hmem2
      · injection heq with e1 e2
        rw [e2]
        exact initRegion_wf h
      · exact hall p r hmem2
    · rcases List.mem_cons.mp hmem with heq | hmem2
      · injection heq with e1 e2
        rw [e2]
        exact updateRegion_wf (hall q r0 (List.mem_cons_self _ _)) h
      · exact hall p r (List.mem_cons_of_mem _ hmem2)
    · rcases List.mem_cons.mp hmem with heq | hmem2
      · injection heq with e1 e2
        rw [e2]
        exact hall q r0 (List.mem_cons_self _ _)
      · exact ih (fun p2 r2 hm => hall p2 r2 (List.mem_cons_of_mem _ hm)) p r hmem2

theorem stepBox_wf {st : RegionState} {tb : GlyphBox}
    (hall : ∀ p r, (p, r) ∈ st.1 → regionWF r) (h : boxNonneg tb) :
    ∀ p r, (p, r) ∈ (stepBox st tb).1 → regionWF r := by
  simp only [stepBox]
  split_ifs with h1 h2
  · exact hall
  · exact hall
  · exact insertBox_wf hall h

theorem foldl_stepBox_wf {bs : List GlyphBox} :
    ∀ {st : RegionState}, (∀ tb ∈ bs, boxNonneg tb) →
      (∀ p r, (p, r) ∈ st.1 → regionWF r) →
      ∀ p r, (p, r) ∈ (bs.foldl stepBox st).1 → regionWF r := by
  induction bs with
  | nil => intro st _ hall; exact hall
  | cons b rest ih =>
    intro st hbs hall
    simp only [List.foldl_cons]
    exact ih (fun tb htb => hbs tb (List.mem_cons_of_mem _ htb))
      (stepBox_wf hall (hbs b (List.mem_cons_self _ _)))

/-- C10.  Baseline containment: folding glyph boxes with nonnegative
height and depth keeps every Region's baseline (the vertical position of
the widest contributing box) inside the Region's y-range, after every fold
step and hence for every Region `computeRegions` produces — before the
coordinate transform and margin expansion. -/
theorem C10_baseline_containment :
    (∀ (st : RegionState) (tb : GlyphBox), boxNonneg tb →
      (∀ p r, (p, r) ∈ st.1 → regionWF r) →
      ∀ p r, (p, r) ∈ (stepBox st tb).1 → regionWF r) ∧
    (∀ (query : Nat → List GlyphBox) (range : Nat × Nat) (seen : List GlyphBox),
      (∀ line, ∀ tb ∈ query line, boxNonneg tb) →
      ∀ p r, (p, r) ∈ (computeRegions query range seen).1 → regionWF r) := by
  constructor
  · intro st tb h hall
    exact stepBox_wf hall h
  · intro query range seen hq
    unfold computeRegions
    generalize List.range' range.1 (range.2 - range.1) = lines
    have hgen : ∀ (st : RegionState), (∀ p r, (p, r) ∈ st.1 → regionWF r) →
        ∀ p r, (p, r) ∈ (lines.foldl (fun st line => (query line).foldl stepBox st) st).1 →
          regionWF r := by
      induction lines with
      | nil => intro st hall; exact hall
      | cons l rest ih =>
        intro st hall
        simp only [List.foldl_cons]
        exact ih _ (foldl_stepBox_wf (hq l) hall)
    exact hgen ([], seen) (by intro p r hmem; simp at hmem)

/-- Concrete instantiation of `C10_baseline_containment`: one box of unit
height and depth folded over one line. -/
theorem C10_baseline_containment_witness :
    (computeRegions (fun _ => [⟨1, 0, 0, 1, 1, 1⟩]) (1, 2) []).1 =
      [(1, initRegion ⟨1, 0, 0, 1, 1, 1⟩)] ∧
    regionWF (initRegion ⟨1, 0, 0, 1, 1, 1⟩) := by
  have heval : (computeRegions (fun _ => [⟨1, 0, 0, 1, 1, 1⟩]) (1, 2) []).1 =
      [(1, initRegion ⟨1, 0, 0, 1, 1, 1⟩)] := by
    have harea : ¬ ((1 : ℚ) + 1 ≤ zeroAreaEps) := by norm_num [zeroAreaEps]
    simp [computeRegions, List.range', stepBox, harea, insertBox]
  refine ⟨heval, ?_⟩
  exact (C10_baseline_containment).2 (fun _ => [⟨1, 0, 0, 1, 1, 1⟩]) (1, 2) []
    (by intro line tb htb
        simp at htb
        rw [htb]
        exact ⟨by norm_num, by norm_num⟩)
    1 (initRegion ⟨1, 0, 0, 1, 1, 1⟩) (by rw [heval]; exact List.mem_singleton.mpr rfl)

/-! ## Vertical-extent refinement (C7) -/

theorem foldl_min_le_init (xs : List ℚ) (a : ℚ) : xs.foldl min a ≤ a := by
  induction xs generalizing a with
  | nil => exact le_refl a
  | cons x rest ih => exact le_trans (ih (min a x)) (min_le_left a x)

theorem foldl_min_le_mem (xs : List ℚ) (a x : ℚ) (h : x ∈ xs) :
    xs.foldl min a ≤ x := by
  induction xs generalizing a with
  | nil => cases h
  | cons y rest ih =>
    rcases List.mem_cons.mp h with rfl | h2
    · exact le_trans (foldl_min_le_init rest (min a x)) (min_le_right a x)
    · exact ih (min a y) h2

theorem foldl_min_attain (xs : List ℚ) (a : ℚ) :
    xs.foldl min a = a ∨ xs.foldl min a ∈ xs := by
  induction xs generalizing a with
  | nil => exact Or.inl rfl
  | cons x rest ih =>
    rcases ih (min a x) with h | h
    · simp only [List.foldl_cons] at *
      rcases min_cases a x with ⟨he, _⟩ | ⟨he, _⟩
      · exact Or.inl (h.trans he)
      · exact Or.inr (List.mem_cons.mpr (Or.inl (h.trans he)))
    · exact Or.inr (List.mem_cons_of_mem _ h)

theorem foldl_max_init_le (xs : List ℚ) (a : ℚ) : a ≤ xs.foldl max a := by
  induction xs generalizing a with
  | nil => exact le_refl a
  | cons x rest ih => exact le_trans (le_max_left a x) (ih (max a x))

theorem foldl_max_mem_le (xs : List ℚ) (a x : ℚ) (h : x ∈ xs) :
    x ≤ xs.foldl max a := by
  induction xs generalizing a with
  | nil => cases h
  | cons y rest ih =>
    rcases List.mem_cons.mp h with rfl | h2
    · exact le_trans (le_max_right a x) (foldl_max_init_le rest (max a x))
    · exact ih (max a y) h2

theorem foldl_max_attain (xs : List ℚ) (a : ℚ) :
    xs.foldl max a = a ∨ xs.foldl max a ∈ xs := by
  induction xs generalizing a with
  | nil => exact Or.inl rfl
  | cons x rest ih =>
    rcases ih (max a x) with h | h
    · simp only [List.foldl_cons] at *
      rcases max_cases a x with ⟨he, _⟩ | ⟨he, _⟩
      · exact Or.inl (h.trans he)
      · exact Or.inr (List.mem_cons.mpr (Or.inl (h.trans he)))
    · exact Or.inr (List.mem_cons_of_mem _ h)

theorem foldl_refineStep_some (lo hi : ℚ) :
    ∀ (bs : List PathBbox) (a c : ℚ),
      bs.foldl (refineStep lo hi) (some (a, c)) =
        some
          (((bs.filter (fun b => decide (max lo b.top ≤ min hi b.bottom))).map
              PathBbox.top).foldl min a,
           ((bs.filter (fun b => decide (max lo b.top ≤ min hi b.bottom))).map
              PathBbox.bottom).foldl max c) := by
  intro bs
  induction bs with
  | nil => intro a c; rfl
  | cons b rest ih =>
    intro a c
    by_cases hb : max lo b.top ≤ min hi b.bottom
    · have hd : decide (max lo b.top ≤ min hi b.bottom) = true := decide_eq_true hb
      have hf : List.filter (fun b => decide (max lo b.top ≤ min hi b.bottom)) (b :: rest) =
          b :: List.filter (fun b => decide (max lo b.top ≤ min hi b.bottom)) rest := by
        simp only [List.filter_cons]
        rw [if_pos hd]
      rw [List.foldl_cons, hf]
      have hstep : refineStep lo hi (some (a, c)) b = some (min a b.top, max c b.bottom) := by
        unfold refineStep
        rw [if_pos hb]
      rw [hstep, ih]
      simp
    · have hne : ¬ (decide (max lo b.top ≤ min hi b.bottom) = true) := by
        simpa using hb
      have hf : List.filter (fun b => decide (max lo b.top ≤ min hi b.bottom)) (b :: rest) =
          List.filter (fun b => decide (max lo b.top ≤ min hi b.bottom)) rest := by
        simp only [List.filter_cons]
        rw [if_neg hne]
      rw [List.foldl_cons, hf]
      have hstep : refineStep lo hi (some (a, c)) b = some (a, c) := by
        unfold refineStep
        rw [if_neg hb]
      rw [hstep, ih]

theorem foldl_refineStep_none (lo hi : ℚ) :
    ∀ bs : List PathBbox,
      bs.foldl (refineStep lo hi) none =
        match bs.filter (fun b => decide (max lo b.top ≤ min hi b.bottom)) with
        | [] => none
        | b0 :: t =>
          some ((t.map PathBbox.top).foldl min b0.top,
                (t.map PathBbox.bottom).foldl max b0.bottom) := by
  intro bs
  induction bs with
  | nil => rfl
  | cons b rest ih =>
    by_cases hb : max lo b.top ≤ min hi b.bottom
    · have hd : decide (max lo b.top ≤ min hi b.bottom) = true := decide_eq_true hb
      have hf : List.filter (fun b => decide (max lo b.top ≤ min hi b.bottom)) (b :: rest) =
          b :: List.filter (fun b => decide (max lo b.top ≤ min hi b.bottom)) rest := by
        simp only [List.filter_cons]
        rw [if_pos hd]
      rw [List.foldl_cons, hf]
      have hstep : refineStep lo hi none b = some (b.top, b.bottom) := by
        unfold refineStep
        rw [if_pos hb]
      rw [hstep, foldl_refineStep_some lo hi rest b.top b.bottom]
    · have hne : ¬ (decide (max lo b.top ≤ min hi b.bottom) = true) := by
        simpa using hb
      have hf : List.filter (fun b => decide (max lo b.top ≤ min hi b.bottom)) (b :: rest) =
          List.filter (fun b => decide (max lo b.top ≤ min hi b.bottom)) rest := by
        simp only [List.filter_cons]
        rw [if_neg hne]
      rw [List.foldl_cons, hf]
      have hstep : refineStep lo hi none b = none := by
        unfold refineStep
        rw [if_neg hb]
      rw [hstep, ih]

/-- The hit predicate of `refineStep` coincides with `bboxHits`. -/
theorem bboxHits_iff (y_min y_max tol : ℚ) (b : PathBbox) :
    bboxHits y_min y_max tol b ↔
      max (y_min - tol) b.top ≤ min (y_max + tol) b.bottom := Iff.rfl

/-- C7.  Vertical-extent refinement with fallback: the final y-range of an
inline-math region is never refined (only the margin is applied), while a
display-math or raw region's y-range is replaced by `refine_y_range`; for
`refine_y_range` itself, when no leaf bbox intersects the tolerance-enlarged
range the input range is returned exactly (the enlargement is undone), and
otherwise the result is exactly the union of the vertical extents of the
intersecting bboxes (a lower bound on every hit's top and an upper bound on
every hit's bottom, both attained by some hit). -/
theorem C7_refine_y_range (bboxes : List PathBbox) (tol margin : ℚ)
    (yr : ℚ × ℚ) (st : Style) :
    (finalYRange (.inlineMath st) bboxes tol margin yr =
      (yr.1 - margin, yr.2 + margin)) ∧
    (finalYRange .displayMath bboxes tol margin yr =
      ((refine_y_range bboxes yr.1 yr.2 tol).1 - margin,
       (refine_y_range bboxes yr.1 yr.2 tol).2 + margin)) ∧
    (finalYRange .rawBlock bboxes tol margin yr =
      ((refine_y_range bboxes yr.1 yr.2 tol).1 - margin,
       (refine_y_range bboxes yr.1 yr.2 tol).2 + margin)) ∧
    ((∀ b ∈ bboxes, ¬ bboxHits yr.1 yr.2 tol b) →
      refine_y_range bboxes yr.1 yr.2 tol = (yr.1, yr.2)) ∧
    ((bboxes.filter (fun b => decide (bboxHits yr.1 yr.2 tol b))) ≠ [] →
      (∀ b ∈ bboxes.filter (fun b => decide (bboxHits yr.1 yr.2 tol b)),
        (refine_y_range bboxes yr.1 yr.2 tol).1 ≤ b.top ∧
        b.bottom ≤ (refine_y_range bboxes yr.1 yr.2 tol).2) ∧
      (∃ b ∈ bboxes.filter (fun b => decide (bboxHits yr.1 yr.2 tol b)),
        (refine_y_range bboxes yr.1 yr.2 tol).1 = b.top) ∧
      (∃ b ∈ bboxes.filter (fun b => decide (bboxHits yr.1 yr.2 tol b)),
        (refine_y_range bboxes yr.1 yr.2 tol).2 = b.bottom)) := by
  have hhits : (fun b : PathBbox => decide (bboxHits yr.1 yr.2 tol b)) =
      (fun b : PathBbox => decide (max (yr.1 - tol) b.top ≤ min (yr.2 + tol) b.bottom)) := by
    funext b
    rfl
  refine ⟨rfl, rfl, rfl, ?_, ?_⟩
  · intro hmiss
    have hnone : bboxes.foldl (refineStep (yr.1 - tol) (yr.2 + tol)) none = none := by
      rw [foldl_refineStep_none]
      have hf : bboxes.filter
          (fun b => decide (max (yr.1 - tol) b.top ≤ min (yr.2 + tol) b.bottom)) = [] := by
        rw [List.filter_eq_nil]
        intro b hb hdec
        exact hmiss b hb (of_decide_eq_true hdec)
      rw [hf]
    show (match bboxes.foldl (refineStep (yr.1 - tol) (yr.2 + tol)) none with
      | none => (yr.1 - tol + tol, yr.2 + tol - tol)
      | some r => r) = (yr.1, yr.2)
    rw [hnone]
    simp
  · intro hne
    rw [hhits] at hne ⊢
    rcases hf : bboxes.filter
        (fun b => decide (max (yr.1 - tol) b.top ≤ min (yr.2 + tol) b.bottom)) with _ | ⟨b0, t⟩
    · exact absurd hf hne
    · have hres : refine_y_range bboxes yr.1 yr.2 tol =
          ((t.map PathBbox.top).foldl min b0.top,
           (t.map PathBbox.bottom).foldl max b0.bottom) := by
        show (match bboxes.foldl (refineStep (yr.1 - tol) (yr.2 + tol)) none with
          | none => (yr.1 - tol + tol, yr.2 + tol - tol)
          | some r => r) = _
        rw [foldl_refineStep_none, hf]
      rw [hres]
      refine ⟨?_, ?_, ?_⟩
      · intro b hb
        rcases List.mem_cons.mp (hf ▸ hb) with rfl | hbt
        · exact ⟨foldl_min_le_init _ _, foldl_max_init_le _ _⟩
        · exact ⟨foldl_min_le_mem _ _ _ (List.mem_map_of_mem _ hbt),
                 foldl_max_mem_le _ _ _ (List.mem_map_of_mem _ hbt)⟩
      · rcases foldl_min_attain (t.map PathBbox.top) b0.top with h | h
        · exact ⟨b0, hf ▸ List.mem_cons_self _ _, h⟩
        · obtain ⟨b, hbt, he⟩ := List.mem_map.mp h
          exact ⟨b, hf ▸ List.mem_cons_of_mem _ hbt, he.symm⟩
      · rcases foldl_max_attain (t.map PathBbox.bottom) b0.bottom with h | h
        · exact ⟨b0, hf ▸ List.mem_cons_self _ _, h⟩
        · obtain ⟨b, hbt, he⟩ := List.mem_map.mp h
          exact ⟨b, hf ▸ List.mem_cons_of_mem _ hbt, he.symm⟩

/-- Concrete instantiation of `C7_refine_y_range`: with no bbox near the
range `(0, 10)` the refinement falls back to `(0, 10)` exactly, and an
inline region with the same data is left unrefined. -/
theorem C7_refine_y_range_witness :
    refine_y_range [⟨100, 101⟩] 0 10 1 = (0, 10) ∧
    finalYRange (.inlineMath .plain) [⟨100, 101⟩] 1 2 (0, 10) = (0 - 2, 10 + 2) := by
  have h := C7_refine_y_range [⟨100, 101⟩] 1 2 (0, 10) .plain
  refine ⟨h.2.2.2.1 ?_, h.1⟩
  intro b hb
  rcases List.mem_singleton.mp hb with rfl
  intro hc
  rw [bboxHits_iff] at hc
  have h1 : (100 : ℚ) ≤ max (0 - 1) (100 : ℚ) := le_max_right _ _
  have h2 : min (10 + 1) (101 : ℚ) ≤ 10 + 1 := min_le_left _ _
  have := le_trans h1 (le_trans hc h2)
  norm_num at this

/-! ## Line ranges of the source assembler (C2, C3) -/

theorem genLoop_head_start (cfg : Config) (cur : Nat) (fragments : List Fragment) :
    ((genLoop cfg cur fragments).2).head?.map Prod.fst =
      fragments.head?.map (fun _ => cur) := by
  cases fragments with
  | nil => rfl
  | cons f fs => rfl

theorem genLoop_forall2 (cfg : Config) :
    ∀ (fragments : List Fragment) (cur : Nat),
      List.Forall₂
        (fun (r : Nat × Nat) f => r.2 = r.1 + lineCount (trimEnd (expandFragment cfg f)))
        ((genLoop cfg cur fragments).2) fragments := by
  intro fragments
  induction fragments with
  | nil => intro cur; exact List.Forall₂.nil
  | cons f fs ih =>
    intro cur
    exact List.Forall₂.cons rfl (ih _)

theorem genLoop_chain (cfg : Config) :
    ∀ (fragments : List Fragment) (cur : Nat),
      List.Chain' (fun (a b : Nat × Nat) => a.2 + 1 = b.1)
        ((genLoop cfg cur fragments).2) := by
  intro fragments
  induction fragments with
  | nil => intro cur; exact List.chain'_nil
  | cons f fs ih =>
    intro cur
    cases fs with
    | nil => exact List.chain'_singleton _
    | cons f2 fs2 =>
      refine List.chain'_cons.mpr ⟨rfl, ih _⟩

theorem genLoop_lower_bound (cfg : Config) :
    ∀ (fragments : List Fragment) (cur : Nat) (r : Nat × Nat),
      r ∈ (genLoop cfg cur fragments).2 → cur ≤ r.1 ∧ r.1 ≤ r.2 := by
  intro fragments
  induction fragments with
  | nil => intro cur r h; cases h
  | cons f fs ih =>
    intro cur r h
    rcases List.mem_cons.mp h with rfl | h2
    · exact ⟨le_refl _, Nat.le_add_right _ _⟩
    · have := ih _ r h2
      omega

theorem genLoop_pairwise (cfg : Config) :
    ∀ (fragments : List Fragment) (cur : Nat),
      List.Pairwise (fun (a b : Nat × Nat) => a.2 < b.1)
        ((genLoop cfg cur fragments).2) := by
  intro fragments
  induction fragments with
  | nil => intro cur; exact List.Pairwise.nil
  | cons f fs ih =>
    intro cur
    refine List.pairwise_cons.mpr ⟨?_, ih _⟩
    intro r hr
    have := genLoop_lower_bound cfg fs _ r hr
    omega

/-- C3.  Line-range contiguity: in assembly order, each recorded range's
end plus one is the next range's start (exactly the one blank separator
line between consecutive fragments), and any two ranges are disjoint —
every earlier range ends strictly before every later range starts. -/
theorem C3_line_range_contiguity (cfg : Config) (fragments : List Fragment) :
    List.Chain' (fun (a b : Nat × Nat) => a.2 + 1 = b.1)
      (generate_latex_with_line_mappings cfg fragments).2 ∧
    List.Pairwise (fun (a b : Nat × Nat) => a.2 < b.1)
      (generate_latex_with_line_mappings cfg fragments).2 :=
  ⟨genLoop_chain cfg fragments _, genLoop_pairwise cfg fragments _⟩

/-- A tiny concrete configuration used to evaluate the source assembler. -/
def cfgSmall : Config :=
  { preamble := "p"
    postamble := ""
    template :=
      { placeholder := "@@"
        inline_math := "@@"
        inline_math_inner := "@@"
        display_math := "@@"
        header := []
        quote := "@@"
        strong := "@@"
        emph := "@@" }
    mode := "pdf"
    y_range_tol := 0
    y_range_margin := 0
    baseline_rise := 0
    extra_style_inline := ""
    extra_style_display := "" }

/-- A raw-block fragment with one line of source. -/
def fragX : Fragment := { ty := .rawBlock, src := "x", refs := [] }

/-- C2 counterexample.  The claim states that a fragment's recorded Line
Range is `[start, new counter)` where the counter advanced by the line
count of the expansion *plus one* for the blank separator.  With preamble
`"p"` and two one-line raw fragments, the recorded ranges are `(2, 3)` and
`(4, 5)`: the first range ends at 3 = start + 1 line, not at
4 = start + 1 line + 1 separator, so the recorded range excludes the
separator line, contradicting the claim. -/
theorem C2_counterexample :
    (generate_latex_with_line_mappings cfgSmall [fragX, fragX]).2 = [(2, 3), (4, 5)] ∧
    2 + lineCount (trimEnd (expandFragment cfgSmall fragX)) + 1 ≠ 3 := by
  constructor
  · rfl
  · decide

/-- C2 (amended).  For every fragment in assembly order the Source
Assembler records a starting line equal to the running line counter, and
the recorded Line Range is `[start, start + lines(expansion))` — the
half-open span of the trimmed expansion's lines only; the running counter
then advances one further line for the blank separator, so the next range
starts at the recorded end plus one.  The first range starts right after
the trimmed preamble. -/
theorem C2_line_range_definition (cfg : Config) (fragments : List Fragment) :
    List.Forall₂
      (fun (r : Nat × Nat) f => r.2 = r.1 + lineCount (trimEnd (expandFragment cfg f)))
      (generate_latex_with_line_mappings cfg fragments).2 fragments ∧
    ((generate_latex_with_line_mappings cfg fragments).2).head?.map Prod.fst =
      fragments.head?.map (fun _ => lineCount (trimEnd cfg.preamble) + 1) ∧
    List.Chain' (fun (a b : Nat × Nat) => a.2 + 1 = b.1)
      (generate_latex_with_line_mappings cfg fragments).2 :=
  ⟨genLoop_forall2 cfg fragments _,
   genLoop_head_start cfg _ fragments,
   genLoop_chain cfg fragments _⟩

/-! ## Fragment deduplication (C1) -/

/-- The dedup key of a fragment: inline-math fragments are keyed by their
style and (trimmed) source; every other kind has no key. -/
def fragKey (f : Fragment) : Option (Style × String) :=
  match f.ty with
  | .inlineMath st => some (st, f.src)
  | _ => none

theorem keyMatch_iff {st : Style} {s : String} {f : Fragment} :
    keyMatch st s f ↔ fragKey f = some (st, s) := by
  unfold keyMatch fragKey
  cases h : f.ty <;> simp

theorem fragKey_eq_some {f : Fragment} {st : Style} {s : String}
    (h : fragKey f = some (st, s)) : f.ty = .inlineMath st ∧ f.src = s := by
  unfold fragKey at h
  cases hf : f.ty <;> rw [hf] at h <;> simp at h
  exact ⟨by rw [h.1], h.2⟩

theorem fragKey_of_not_inline {f : Fragment} (h : isInlineTy f.ty = false) :
    fragKey f = none := by
  unfold fragKey
  cases hf : f.ty <;> simp_all [isInlineTy]

theorem pushToFirst_none_iff {st : Style} {s : String} {r : NodeRef}
    {fs : List Fragment} :
    pushToFirst st s r fs = none ↔ ∀ f ∈ fs, ¬ keyMatch st s f := by
  induction fs with
  | nil => simp [pushToFirst]
  | cons f rest ih =>
    by_cases h : keyMatch st s f
    · simp [pushToFirst, h]
    · rw [show pushToFirst st s r (f :: rest) = (pushToFirst st s r rest).map (f :: ·) from
        by rw [pushToFirst, if_neg h]]
      rw [Option.map_eq_none']
      constructor
      · intro hnone g hg
        rcases List.mem_cons.mp hg with rfl | hg2
        · exact h
        · exact (ih.mp hnone) g hg2
      · intro hall
        exact ih.mpr (fun g hg => hall g (List.mem_cons_of_mem _ hg))

theorem pushToFirst_some {st : Style} {s : String} {r : NodeRef} :
    ∀ {fs fs2 : List Fragment}, pushToFirst st s r fs = some fs2 →
      ∃ pre f post, fs = pre ++ f :: post ∧ keyMatch st s f ∧
        fs2 = pre ++ { f with refs := f.refs ++ [r] } :: post := by
  intro fs
  induction fs with
  | nil => intro fs2 h; simp [pushToFirst] at h
  | cons f rest ih =>
    intro fs2 h
    by_cases hk : keyMatch st s f
    · rw [pushToFirst, if_pos hk] at h
      injection h with h
      exact ⟨[], f, rest, rfl, hk, h.symm⟩
    · rw [pushToFirst, if_neg hk] at h
      rcases Option.map_eq_some'.mp h with ⟨fs3, h3, rfl⟩
      obtain ⟨pre, g, post, he, hkg, he2⟩ := ih h3
      exact ⟨f :: pre, g, post, by rw [he]; rfl, hkg, by rw [he2]; rfl⟩

/-- Two fragments never sharing an inline-math dedup key. -/
def keysDisjoint (f g : Fragment) : Prop :=
  ∀ k, fragKey f = some k → fragKey g ≠ some k

theorem keysDisjoint_symmetric : Symmetric keysDisjoint := by
  intro f g h k hkg hkf
  exact h k hkf hkg

theorem keysDisjoint_congr_left {f f2 g : Fragment}
    (h : fragKey f = fragKey f2) : keysDisjoint f g ↔ keysDisjoint f2 g := by
  unfold keysDisjoint
  rw [h]

theorem keysDisjoint_congr_right {f g g2 : Fragment}
    (h : fragKey g = fragKey g2) : keysDisjoint f g ↔ keysDisjoint f g2 := by
  unfold keysDisjoint
  rw [h]

theorem addFragment_uniqueKeys {fs : List Fragment} {ty : FragmentType}
    {s : String} {r : NodeRef} (h : fs.Pairwise keysDisjoint) :
    (addFragment fs ty s r).Pairwise keysDisjoint := by
  match ty with
  | .displayMath | .rawBlock | .dontShow =>
    refine List.pairwise_append.mpr ⟨h, List.pairwise_singleton _ _, ?_⟩
    intro f hf g hg k hkf hkg
    rw [List.mem_singleton.mp hg] at hkg
    simp [fragKey] at hkg
  | .inlineMath st =>
    rw [addFragment]
    cases hp : pushToFirst st (rustTrim s) r fs with
    | none =>
      refine List.pairwise_append.mpr ⟨h, List.pairwise_singleton _ _, ?_⟩
      intro f hf g hg k hkf hkg
      rw [List.mem_singleton.mp hg] at hkg
      have hk : k = (st, rustTrim s) := by
        simpa [fragKey] using hkg.symm
      rw [hk] at hkf
      exact (pushToFirst_none_iff.mp hp) f hf (keyMatch_iff.mpr hkf)
    | some fs2 =>
      obtain ⟨pre, f, post, he, hkf, he2⟩ := pushToFirst_some hp
      rw [he] at h
      rw [he2]
      have hkey : fragKey f = fragKey { f with refs := f.refs ++ [r] } := rfl
      rw [List.pairwise_append] at h ⊢
      obtain ⟨h1, h2, h3⟩ := h
      refine ⟨h1, ?_, ?_⟩
      · rw [List.pairwise_cons] at h2 ⊢
        exact ⟨fun g hg => (keysDisjoint_congr_left hkey).mp (h2.1 g hg), h2.2⟩
      · intro a ha b hb
        rcases List.mem_cons.mp hb with rfl | hb2
        · exact (keysDisjoint_congr_right hkey).mp (h3 a ha _ (List.mem_cons_self _ _))
        · exact h3 a ha b (List.mem_cons_of_mem _ hb2)

theorem addFragment_singleton_refs {fs : List Fragment} {ty : FragmentType}
    {s : String} {r : NodeRef}
    (h : ∀ f ∈ fs, isInlineTy f.ty = false → f.refs.length = 1) :
    ∀ f ∈ addFragment fs ty s r, isInlineTy f.ty = false → f.refs.length = 1 := by
  match ty with
  | .displayMath | .rawBlock | .dontShow =>
    intro f hf hni
    rcases List.mem_append.mp hf with hf2 | hf2
    · exact h f hf2 hni
    · rw [List.mem_singleton.mp hf2]
      rfl
  | .inlineMath st =>
    rw [addFragment]
    cases hp : pushToFirst st (rustTrim s) r fs with
    | none =>
      intro f hf hni
      rcases List.mem_append.mp hf with hf2 | hf2
      · exact h f hf2 hni
      · rw [List.mem_singleton.mp hf2] at hni
        simp [isInlineTy] at hni
    | some fs2 =>
      obtain ⟨pre, f0, post, he, hkf, he2⟩ := pushToFirst_some hp
      intro f hf hni
      rw [he2] at hf
      rcases List.mem_append.mp hf with hf2 | hf2
      · exact h f (he ▸ List.mem_append_left _ hf2) hni
      · rcases List.mem_cons.mp hf2 with rfl | hf3
        · exfalso
          have := (fragKey_eq_some (keyMatch_iff.mp hkf)).1
          simp [isInlineTy, this] at hni
        · exact h f (he ▸ List.mem_append_right _ (List.mem_cons_of_mem _ hf3)) hni

/-- A back-reference `r` is recorded in some fragment keyed `k`. -/
def RefIn (fs : List Fragment) (k : Style × String) (r : NodeRef) : Prop :=
  ∃ f ∈ fs, fragKey f = some k ∧ r ∈ f.refs

theorem refIn_mono {fs : List Fragment} {k : Style × String} {r : NodeRef}
    (h : RefIn fs k r) (ty : FragmentType) (s : String) (r2 : NodeRef) :
    RefIn (addFragment fs ty s r2) k r := by
  obtain ⟨f, hf, hkf, hr⟩ := h
  match ty with
  | .displayMath | .rawBlock | .dontShow =>
    exact ⟨f, List.mem_append_left _ hf, hkf, hr⟩
  | .inlineMath st =>
    rw [addFragment]
    cases hp : pushToFirst st (rustTrim s) r2 fs with
    | none => exact ⟨f, List.mem_append_left _ hf, hkf, hr⟩
    | some fs2 =>
      obtain ⟨pre, f0, post, he, hkf0, he2⟩ := pushToFirst_some hp
      rw [he] at hf
      rw [he2]
      rcases List.mem_append.mp hf with hf2 | hf2
      · exact ⟨f, List.mem_append_left _ hf2, hkf, hr⟩
      · rcases List.mem_cons.mp hf2 with rfl | hf3
        · refine ⟨{ f with refs := f.refs ++ [r2] }, ?_, hkf, List.mem_append_left _ hr⟩
          exact List.mem_append_right _ (List.mem_cons_self _ _)
        · exact ⟨f, List.mem_append_right _ (List.mem_cons_of_mem _ hf3), hkf, hr⟩

theorem refIn_add_self (fs : List Fragment) (st : Style) (src : String)
    (r : NodeRef) :
    RefIn (addFragment fs (.inlineMath st) src r) (st, rustTrim src) r := by
  rw [addFragment]
  cases hp : pushToFirst st (rustTrim src) r fs with
  | none =>
    refine ⟨{ ty := .inlineMath st, src := rustTrim src, refs := [r] }, ?_, rfl, ?_⟩
    · exact List.mem_append_right _ (List.mem_singleton.mpr rfl)
    · exact List.mem_singleton.mpr rfl
  | some fs2 =>
    obtain ⟨pre, f0, post, he, hkf0, he2⟩ := pushToFirst_some hp
    rw [he2]
    refine ⟨{ f0 with refs := f0.refs ++ [r] }, ?_, ?_, ?_⟩
    · exact List.mem_append_right _ (List.mem_cons_self _ _)
    · exact keyMatch_iff.mp hkf0
    · exact List.mem_append_right _ (List.mem_singleton.mpr rfl)

theorem nonInline_preserved {fs : List Fragment} {f : Fragment}
    (hf : f ∈ fs) (hni : isInlineTy f.ty = false) (ty : FragmentType)
    (s : String) (r : NodeRef) : f ∈ addFragment fs ty s r := by
  match ty with
  | .displayMath | .rawBlock | .dontShow => exact List.mem_append_left _ hf
  | .inlineMath st =>
    rw [addFragment]
    cases hp : pushToFirst st (rustTrim s) r fs with
    | none => exact List.mem_append_left _ hf
    | some fs2 =>
      obtain ⟨pre, f0, post, he, hkf0, he2⟩ := pushToFirst_some hp
      rw [he] at hf
      rw [he2]
      rcases List.mem_append.mp hf with hf2 | hf2
      · exact List.mem_append_left _ hf2
      · rcases List.mem_cons.mp hf2 with rfl | hf3
        · exfalso
          have := (fragKey_eq_some (keyMatch_iff.mp hkf0)).1
          simp [isInlineTy, this] at hni
        · exact List.mem_append_right _ (List.mem_cons_of_mem _ hf3)

/-- One step of `runAdds`. -/
def addStep (fs : List Fragment) (c : FragmentType × String × NodeRef) :
    List Fragment :=
  addFragment fs c.1 c.2.1 c.2.2

theorem runAdds_eq_foldl (calls : List (FragmentType × String × NodeRef)) :
    runAdds calls = calls.foldl addStep [] := rfl

theorem foldl_addStep_uniqueKeys (calls : List (FragmentType × String × NodeRef)) :
    ∀ {fs : List Fragment}, fs.Pairwise keysDisjoint →
      (calls.foldl addStep fs).Pairwise keysDisjoint := by
  induction calls with
  | nil => intro fs h; exact h
  | cons c rest ih => intro fs h; exact ih (addFragment_uniqueKeys h)

theorem foldl_addStep_singleton (calls : List (FragmentType × String × NodeRef)) :
    ∀ {fs : List Fragment},
      (∀ f ∈ fs, isInlineTy f.ty = false → f.refs.length = 1) →
      ∀ f ∈ calls.foldl addStep fs, isInlineTy f.ty = false → f.refs.length = 1 := by
  induction calls with
  | nil => intro fs h; exact h
  | cons c rest ih => intro fs h; exact ih (addFragment_singleton_refs h)

theorem foldl_addStep_refIn (calls : List (FragmentType × String × NodeRef)) :
    ∀ {fs : List Fragment} {k : Style × String} {r : NodeRef}, RefIn fs k r →
      RefIn (calls.foldl addStep fs) k r := by
  induction calls with
  | nil => intro fs k r h; exact h
  | cons c rest ih => intro fs k r h; exact ih (refIn_mono h c.1 c.2.1 c.2.2)

theorem foldl_addStep_nonInline (calls : List (FragmentType × String × NodeRef)) :
    ∀ {fs : List Fragment} {f : Fragment}, f ∈ fs → isInlineTy f.ty = false →
      f ∈ calls.foldl addStep fs := by
  induction calls with
  | nil => intro fs f h _; exact h
  | cons c rest ih =>
    intro fs f h hni
    exact ih (nonInline_preserved h hni c.1 c.2.1 c.2.2) hni

/-- C1.  Fragment deduplication.  Over any sequence of `add_fragment`
calls starting from the empty fragment list: (1) two inline-math calls with
equal style and equal trimmed source end up in one single fragment whose
back-reference list contains both locations; (2) no two fragments of the
final list share an inline-math dedup key, so that fragment is unique;
(3) every fragment of a non-inline kind (display math, raw block, silent)
holds exactly one back-reference; (4) each non-inline call contributes a
fragment consisting of exactly its own trimmed source and its single
back-reference. -/
theorem C1_fragment_dedup (calls : List (FragmentType × String × NodeRef)) :
    (∀ (st : Style) (s1 s2 : String) (r1 r2 : NodeRef),
      (FragmentType.inlineMath st, s1, r1) ∈ calls →
      (FragmentType.inlineMath st, s2, r2) ∈ calls →
      rustTrim s1 = rustTrim s2 →
      ∃ f ∈ runAdds calls, f.ty = FragmentType.inlineMath st ∧
        f.src = rustTrim s1 ∧ r1 ∈ f.refs ∧ r2 ∈ f.refs) ∧
    (runAdds calls).Pairwise keysDisjoint ∧
    (∀ f ∈ runAdds calls, isInlineTy f.ty = false → f.refs.length = 1) ∧
    (∀ c ∈ calls, isInlineTy c.1 = false →
      ∃ f ∈ runAdds calls, f.ty = c.1 ∧ f.src = rustTrim c.2.1 ∧
        f.refs = [c.2.2]) := by
  have huniq : (runAdds calls).Pairwise keysDisjoint :=
    foldl_addStep_uniqueKeys calls List.Pairwise.nil
  refine ⟨?_, huniq, ?_, ?_⟩
  · intro st s1 s2 r1 r2 h1 h2 hs
    have href : ∀ (s : String) (r : NodeRef),
        (FragmentType.inlineMath st, s, r) ∈ calls →
        RefIn (runAdds calls) (st, rustTrim s) r := by
      intro s r hc
      obtain ⟨l1, l2, he⟩ := List.append_of_mem hc
      rw [runAdds_eq_foldl, he, List.foldl_append, List.foldl_cons]
      exact foldl_addStep_refIn l2 (refIn_add_self _ st s r)
    obtain ⟨f1, hf1, hk1, hr1⟩ := href s1 r1 h1
    obtain ⟨f2, hf2, hk2, hr2⟩ := href s2 r2 h2
    rw [← hs] at hk2
    have hf12 : f1 = f2 := by
      by_contra hne
      exact (huniq.forall keysDisjoint_symmetric hf1 hf2 hne) _ hk1 hk2
    obtain ⟨hty, hsrc⟩ := fragKey_eq_some hk1
    exact ⟨f1, hf1, hty, hsrc, hr1, hf12 ▸ hr2⟩
  · exact foldl_addStep_singleton calls (by intro f hf; cases hf)
  · intro c hc hni
    obtain ⟨l1, l2, he⟩ := List.append_of_mem hc
    have hmem : ({ ty := c.1, src := rustTrim c.2.1, refs := [c.2.2] } : Fragment) ∈
        addStep (l1.foldl addStep []) c := by
      unfold addStep addFragment
      match hty : c.1 with
      | .displayMath | .rawBlock | .dontShow =>
        exact List.mem_append_right _ (List.mem_singleton.mpr rfl)
      | .inlineMath st =>
        rw [hty] at hni
        simp [isInlineTy] at hni
    rw [runAdds_eq_foldl, he, List.foldl_append, List.foldl_cons]
    refine ⟨_, foldl_addStep_nonInline l2 hmem ?_, rfl, rfl, rfl⟩
    exact hni

/-- Concrete instantiation of `C1_fragment_dedup`: two inline calls with
the same style and source merge into one fragment holding both refs, and a
raw-block call keeps its own single-ref fragment. -/
theorem C1_fragment_dedup_witness :
    (∃ f ∈ runAdds
        [(FragmentType.inlineMath .plain, "x+y", .inline .null),
         (FragmentType.rawBlock, "z", .block .null),
         (FragmentType.inlineMath .plain, " x+y ", .inline (.str "q"))],
      f.ty = FragmentType.inlineMath .plain ∧ f.src = rustTrim "x+y" ∧
        NodeRef.inline .null ∈ f.refs ∧ NodeRef.inline (.str "q") ∈ f.refs) ∧
    (∃ f ∈ runAdds
        [(FragmentType.inlineMath .plain, "x+y", .inline .null),
         (FragmentType.rawBlock, "z", .block .null),
         (FragmentType.inlineMath .plain, " x+y ", .inline (.str "q"))],
      f.ty = FragmentType.rawBlock ∧ f.src = rustTrim "z" ∧
        f.refs = [.block .null]) := by
  have h := C1_fragment_dedup
    [(FragmentType.inlineMath .plain, "x+y", .inline .null),
     (FragmentType.rawBlock, "z", .block .null),
     (FragmentType.inlineMath .plain, " x+y ", .inline (.str "q"))]
  constructor
  · exact h.1 .plain "x+y" " x+y " (.inline .null) (.inline (.str "q"))
      (List.mem_cons_self _ _)
      (List.mem_cons_of_mem _ (List.mem_cons_of_mem _ (List.mem_cons_self _ _)))
      (by decide)
  · exact h.2.2.2 (FragmentType.rawBlock, "z", .block .null)
      (List.mem_cons_of_mem _ (List.mem_cons_self _ _)) rfl

/-! ## Multi-page behaviour (C4) -/

theorem insertBox_mem_keys (tb : GlyphBox) :
    ∀ (regions : List (Nat × Region)) (x : Nat × Region), x ∈ insertBox regions tb →
      (∃ y ∈ regions, x.1 = y.1) ∨ x.1 = tb.page := by
  intro regions
  induction regions with
  | nil =>
    intro x h
    simp [insertBox] at h
    right
    rw [h]
  | cons hd rest ih =>
    intro x h
    obtain ⟨q, r0⟩ := hd
    simp only [insertBox] at h
    split_ifs at h with h1 h2
    · rcases List.mem_cons.mp h with heq | h3
      · right
        rw [heq]
      · exact Or.inl ⟨x, h3, rfl⟩
    · rcases List.mem_cons.mp h with heq | h3
      · exact Or.inl ⟨(q, r0), List.mem_cons_self _ _, by rw [heq]⟩
      · exact Or.inl ⟨x, List.mem_cons_of_mem _ h3, rfl⟩
    · rcases List.mem_cons.mp h with heq | h3
      · exact Or.inl ⟨(q, r0), List.mem_cons_self _ _, by rw [heq]⟩
      · rcases ih x h3 with ⟨y, hy, he⟩ | he
        · exact Or.inl ⟨y, List.mem_cons_of_mem _ hy, he⟩
        · exact Or.inr he

theorem insertBox_pairwise {regions : List (Nat × Region)} {tb : GlyphBox}
    (h : List.Pairwise (fun (a b : Nat × Region) => a.1 < b.1) regions) :
    List.Pairwise (fun (a b : Nat × Region) => a.1 < b.1) (insertBox regions tb) := by
  induction regions with
  | nil => exact List.pairwise_singleton _ _
  | cons hd rest ih =>
    obtain ⟨q, r0⟩ := hd
    obtain ⟨hhd, hrest⟩ := List.pairwise_cons.mp h
    simp only [insertBox]
    split_ifs with h1 h2
    · refine List.pairwise_cons.mpr ⟨?_, h⟩
      intro x hx
      rcases List.mem_cons.mp hx with rfl | hx2
      · exact h1
      · exact lt_trans h1 (hhd x hx2)
    · exact List.pairwise_cons.mpr ⟨hhd, hrest⟩
    · refine List.pairwise_cons.mpr ⟨?_, ih hrest⟩
      intro x hx
      rcases insertBox_mem_keys tb rest x hx with ⟨y, hy, he⟩ | he
      · exact he ▸ hhd y hy
      · rw [he]
        omega

theorem stepBox_pairwise {st : RegionState} {tb : GlyphBox}
    (h : List.Pairwise (fun (a b : Nat × Region) => a.1 < b.1) st.1) :
    List.Pairwise (fun (a b : Nat × Region) => a.1 < b.1) (stepBox st tb).1 := by
  simp only [stepBox]
  split_ifs <;> first | exact h | exact insertBox_pairwise h

theorem computeRegions_pairwise (query : Nat → List GlyphBox) (range : Nat × Nat)
    (seen : List GlyphBox) :
    List.Pairwise (fun (a b : Nat × Region) => a.1 < b.1)
      (computeRegions query range seen).1 := by
  unfold computeRegions
  generalize List.range' range.1 (range.2 - range.1) = lines
  have hboxes : ∀ (bs : List GlyphBox) (st : RegionState),
      List.Pairwise (fun (a b : Nat × Region) => a.1 < b.1) st.1 →
      List.Pairwise (fun (a b : Nat × Region) => a.1 < b.1) (bs.foldl stepBox st).1 := by
    intro bs
    induction bs with
    | nil => intro st h; exact h
    | cons b rest ih => intro st h; exact ih _ (stepBox_pairwise h)
  have hgen : ∀ (st : RegionState),
      List.Pairwise (fun (a b : Nat × Region) => a.1 < b.1) st.1 →
      List.Pairwise (fun (a b : Nat × Region) => a.1 < b.1)
        ((lines.foldl (fun st line => (query line).foldl stepBox st) st).1) := by
    induction lines with
    | nil => intro st h; exact h
    | cons l rest ih =>
      intro st h
      exact ih _ (hboxes (query l) st h)
  exact hgen ([], seen) List.Pairwise.nil

/-- C4.  Multi-page behaviour: the per-fragment regions are keyed by
strictly ascending page numbers; an inline-math fragment whose surviving
boxes produced two or more page regions makes `renderFragment` fail with
an error naming the fragment's source text; a display-math or raw fragment
with at least one region succeeds, emitting exactly one image per region,
stacked with `<br>` separators inside a centered `<div>` container. -/
theorem C4_multi_page_behaviour (cfg : Config) (viewBoxes : List (ℚ × ℚ))
    (classNames : List String) (bboxes : List (List PathBbox))
    (query : Nat → List GlyphBox) (seen : List GlyphBox) (src : String)
    (range : Nat × Nat) :
    List.Pairwise (fun (a b : Nat × Region) => a.1 < b.1)
      (computeRegions query range seen).1 ∧
    (∀ st : Style, 2 ≤ (computeRegions query range seen).1.length →
      ∃ a b : String,
        renderFragment cfg viewBoxes classNames bboxes query seen
          (.inlineMath st) src range = .error (a ++ src ++ b)) ∧
    (∀ ty : FragmentType, ty = .displayMath ∨ ty = .rawBlock →
      (computeRegions query range seen).1 ≠ [] →
      renderFragment cfg viewBoxes classNames bboxes query seen ty src range =
        .ok ("<div class=\"jl-display-div\" style=\"text-align:center;\">" ++
          String.intercalate "<br>"
            ((computeRegions query range seen).1.map
              (imgFor cfg viewBoxes classNames bboxes ty src)) ++ "</div>",
          (computeRegions query range seen).2) ∧
      ((computeRegions query range seen).1.map
          (imgFor cfg viewBoxes classNames bboxes ty src)).length =
        (computeRegions query range seen).1.length) := by
  refine ⟨computeRegions_pairwise query range seen, ?_, ?_⟩
  · intro st hlen
    have hne : ¬ ((computeRegions query range seen).1.isEmpty = true) := by
      cases hr : (computeRegions query range seen).1 with
      | nil => rw [hr] at hlen; simp at hlen
      | cons a l => simp [hr]
    have hcond : isInlineTy (.inlineMath st) ∧
        1 < (computeRegions query range seen).1.length := ⟨rfl, by omega⟩
    refine ⟨"inline fragments \x27",
      "\x27 spans multiple pages " ++ pagesRepr (computeRegions query range seen).1 ++
        " (did you disable page numbering?)", ?_⟩
    simp only [renderFragment]
    rw [if_neg hne, if_pos hcond]
    congr 1
    simp [String.append_assoc]
  · intro ty hty hne
    have hne2 : ¬ ((computeRegions query range seen).1.isEmpty = true) := by
      cases hr : (computeRegions query range seen).1 with
      | nil => exact absurd hr hne
      | cons a l => simp [hr]
    have hni : isInlineTy ty = false := by
      rcases hty with rfl | rfl <;> rfl
    have hcond : ¬ (isInlineTy ty ∧
        1 < (computeRegions query range seen).1.length) := by
      intro hc
      rw [hni] at hc
      exact Bool.false_ne_true hc.1
    constructor
    · simp only [renderFragment]
      rw [if_neg hne2, if_neg hcond]
      rcases hty with rfl | rfl <;> rfl
    · rw [List.length_map]

/-- Concrete instantiation of `C4_multi_page_behaviour`: boxes on pages 1
and 2 make an inline fragment fail with an error naming its source, while
a display fragment succeeds. -/
theorem C4_multi_page_witness :
    (∃ a b : String,
      renderFragment cfgSmall [] [] []
        (fun line => if line = 1 then [⟨1, 0, 0, 1, 1, 0⟩]
          else if line = 2 then [⟨2, 0, 0, 1, 1, 0⟩] else [])
        [] (.inlineMath .plain) "x+y" (1, 3) = .error (a ++ "x+y" ++ b)) ∧
    ((computeRegions
        (fun line => if line = 1 then [⟨1, 0, 0, 1, 1, 0⟩]
          else if line = 2 then [⟨2, 0, 0, 1, 1, 0⟩] else [])
        (1, 3) []).1.length = 2) := by
  have hlen : (computeRegions
      (fun line => if line = 1 then [⟨(1 : Nat), 0, 0, 1, 1, 0⟩]
        else if line = 2 then [⟨2, 0, 0, 1, 1, 0⟩] else [])
      (1, 3) []).1.length = 2 := by
    have harea : ¬ ((1 : ℚ) ≤ zeroAreaEps) := by norm_num [zeroAreaEps]
    simp [computeRegions, List.range', stepBox, harea, insertBox, GlyphBox.mk.injEq]
  refine ⟨?_, hlen⟩
  exact (C4_multi_page_behaviour cfgSmall [] [] []
    (fun line => if line = 1 then [⟨1, 0, 0, 1, 1, 0⟩]
      else if line = 2 then [⟨2, 0, 0, 1, 1, 0⟩] else [])
    [] "x+y" (1, 3)).2.1 .plain (by rw [hlen])

/-! ## Empty-document short circuit (C9) -/

/-- C9.  If the tree walk over the original blocks collects no fragments,
the pipeline prefix finishes successfully with outcome `done` — so the
continuation holding every external-tool invocation (compiler, converter,
SVG parsing, region reconstruction) is never entered — and the resulting
tree is the original tree with only the pre-allocated placeholder replaced
by an empty raw HTML block at the end of the outermost block sequence:
every original block is left unmodified. -/
theorem C9_empty_document_short_circuit (tree : JValue) (blocks : List JValue)
    (h1 : (tree.jindex "blocks").as_array = some blocks)
    (h2 : go_blocks blocks Style.plain [] = .ok []) :
    render_prefix tree =
      .ok (.done (tree.jset "blocks" (.arr (blocks ++ [dummyRawBlock])))) := by
  unfold render_prefix
  rw [h1]
  dsimp only
  rw [h2]
  rfl

/-- A plain string inline node. -/
def strHi : JValue := .obj [("t", .str "Str"), ("c", .str "hi")]

/-- A one-paragraph document with no math content. -/
def paraHi : JValue :=
  .obj [("t", .str "Para"), ("c", .arr [strHi])]

/-- A document tree with one plain paragraph block. -/
def treeHi : JValue :=
  .obj [("blocks", .arr [paraHi]), ("meta", .obj [])]

set_option maxRecDepth 8192 in
theorem treeHi_walk : go_blocks [paraHi] Style.plain [] = .ok [] := by
  have s1 : walk_block paraHi Style.plain [] =
      walk_inlines (paraHi.jindex "c") "Para" Style.plain [] := by
    rw [walk_block.eq_def]
    rfl
  have s2 : walk_inlines (paraHi.jindex "c") "Para" Style.plain [] =
      go_inlines [strHi] Style.plain [] := by
    rw [walk_inlines.eq_def]
    rfl
  have s3 : go_inlines [strHi] Style.plain [] =
      (do
        let fs ← walk_inline strHi Style.plain []
        go_inlines [] Style.plain fs) := by
    rw [go_inlines.eq_def]
  have s4 : walk_inline strHi Style.plain [] = .ok [] := by
    rw [walk_inline.eq_def]
    rfl
  have s5 : go_inlines [] Style.plain [] = .ok ([] : List Fragment) := by
    rw [go_inlines.eq_def]
  have s6 : go_blocks [] Style.plain [] = .ok ([] : List Fragment) := by
    rw [go_blocks.eq_def]
  have s34 : go_inlines [strHi] Style.plain [] = .ok [] := by
    rw [s3, s4]
    exact s5
  have sblock : walk_block paraHi Style.plain [] = .ok [] := by
    rw [s1, s2]
    exact s34
  rw [go_blocks.eq_def]
  show (do
    let fs ← walk_block paraHi Style.plain []
    go_blocks [] Style.plain fs) = Except.ok []
  rw [sblock]
  exact s6

/-- Concrete instantiation of `C9_empty_document_short_circuit` on
`treeHi`. -/
theorem C9_empty_document_witness :
    render_prefix treeHi =
      .ok (.done (treeHi.jset "blocks" (.arr ([paraHi] ++ [dummyRawBlock])))) :=
  C9_empty_document_short_circuit treeHi [paraHi] rfl treeHi_walk

/-! ## Font patcher lemmas (C8) -/

theorem byteAt_lt_256 (bs : List Nat) (i : Nat) : byteAt bs i < 256 :=
  Nat.mod_lt _ (by norm_num)

theorem read_u16_lt_65536 (bs : List Nat) (off : Nat) : read_u16 bs off < 65536 := by
  have h1 := byteAt_lt_256 bs off
  have h2 := byteAt_lt_256 bs (off + 1)
  unfold read_u16
  omega

theorem length_writeBytes :
    ∀ (vs bs : List Nat) (i : Nat), (writeBytes bs i vs).length = bs.length := by
  intro vs
  induction vs with
  | nil => intro bs i; rfl
  | cons v rest ih =>
    intro bs i
    rw [writeBytes, ih, List.length_set]

theorem byteAt_set_ne (bs : List Nat) (i j v : Nat) (h : i ≠ j) :
    byteAt (bs.set i v) j = byteAt bs j := by
  unfold byteAt
  rw [List.getD, List.getD, List.get?_eq_getElem?, List.get?_eq_getElem?,
    List.getElem?_set_ne h]

theorem byteAt_set_self (bs : List Nat) (i v : Nat) (h : i < bs.length) :
    byteAt (bs.set i v) i = v % 256 := by
  unfold byteAt
  rw [List.getD, List.get?_eq_getElem?, List.getElem?_set_eq_of_lt v h]
  rfl

theorem byteAt_writeBytes_lt :
    ∀ (vs bs : List Nat) (i j : Nat), j < i →
      byteAt (writeBytes bs i vs) j = byteAt bs j := by
  intro vs
  induction vs with
  | nil => intro bs i j _; rfl
  | cons v rest ih =>
    intro bs i j h
    rw [writeBytes, ih _ _ _ (by omega), byteAt_set_ne _ _ _ _ (by omega)]

theorem byteAt_writeBytes_ge :
    ∀ (vs bs : List Nat) (i j : Nat), i + vs.length ≤ j →
      byteAt (writeBytes bs i vs) j = byteAt bs j := by
  intro vs
  induction vs with
  | nil => intro bs i j _; rfl
  | cons v rest ih =>
    intro bs i j h
    rw [List.length_cons] at h
    rw [writeBytes, ih _ _ _ (by omega), byteAt_set_ne _ _ _ _ (by omega)]

theorem byteAt_writeBytes_head (bs : List Nat) (i v : Nat) (vs : List Nat)
    (h : i < bs.length) :
    byteAt (writeBytes bs i (v :: vs)) i = v % 256 := by
  rw [writeBytes, byteAt_writeBytes_lt vs _ _ _ (Nat.lt_succ_self i)]
  exact byteAt_set_self bs i v h

theorem read_u16_writeBytes_u16be (bs : List Nat) (i n : Nat)
    (h : i + 1 < bs.length) :
    read_u16 (writeBytes bs i (u16be n)) i = n % 65536 := by
  unfold u16be
  have h0 : byteAt (writeBytes bs i [n / 256 % 256, n % 256]) i = n / 256 % 256 % 256 :=
    byteAt_writeBytes_head bs i _ _ (by omega)
  have h1 : byteAt (writeBytes bs i [n / 256 % 256, n % 256]) (i + 1) = n % 256 % 256 := by
    rw [show writeBytes bs i [n / 256 % 256, n % 256] =
        writeBytes (bs.set i (n / 256 % 256)) (i + 1) [n % 256] from rfl]
    exact byteAt_writeBytes_head _ _ _ _ (by rw [List.length_set]; omega)
  unfold read_u16
  rw [h0, h1]
  omega

/-- A minimal concrete font: one table directory entry tagged `name`, a
version‑0 name table at offset 28 with two records (Macintosh family name
and postscript name, both pointing at the one-byte string block), 59 bytes
in total. -/
def fontC8 : List Nat :=
  [0, 1, 0, 0,
   0, 1,
   0, 0, 0, 0, 0, 0,
   0x6e, 0x61, 0x6d, 0x65,
   0, 0, 0, 0,
   0, 0, 0, 28,
   0, 0, 0, 31,
   0, 0,
   0, 2,
   0, 30,
   0, 1, 0, 0, 0, 0, 0, 1, 0, 1, 0, 0,
   0, 1, 0, 0, 0, 0, 0, 6, 0, 1, 0, 0,
   65]

/-- C8 counterexample.  `fontC8` already carries both a family-name and a
postscript-name record, yet `patch_font` still appends a byte-for-byte
copy of the name table (header, records and string block) to the end of
the buffer and re-points the directory at it: the output is 31 bytes
longer than the input, refuting "does not append a duplicate name table".
The record count is nevertheless unchanged (still 2). -/
theorem C8_counterexample :
    nameFlags fontC8 28 2 = (true, true) ∧
    (patch_font fontC8 [65]).toOption.map List.length = some (fontC8.length + 31) ∧
    (patch_font fontC8 [65]).toOption.map (fun r => r.drop fontC8.length) =
      some ((fontC8.drop 28).take 30 ++ [65]) ∧
    (patch_font fontC8 [65]).toOption.map (fun r => read_u16 r (fontC8.length + 2)) =
      some 2 := by
  refine ⟨by decide, by decide, by decide, by decide⟩

set_option maxRecDepth 16384 in
/-- C8 (amended).  Font patch idempotence, as the code actually behaves:
for a well-formed font whose name table already contains both a
family-name and a postscript-name record for a Unicode or Macintosh
platform, `patch_font` succeeds, appends **no** new name records — the
record count stored in the rewritten table equals the original count —
but it still unconditionally appends a re-pointed copy of the name table,
so the output buffer grows by exactly the size of that copy
(header + records + string block). -/
theorem C8_font_patch_idempotence (font family : List Nat)
    (h1 : (findNameTable font).2.2 ≠ 0)
    (h2 : read_u16 font (findNameTable font).2.1 = 0)
    (h3 : nameFlags font (findNameTable font).2.1
      (read_u16 font ((findNameTable font).2.1 + 2)) = (true, true))
    (h4 : (findNameTable font).1 + 16 ≤ font.length)
    (h5 : (findNameTable font).2.1 + 6 +
        12 * read_u16 font ((findNameTable font).2.1 + 2) ≤
      (findNameTable font).2.1 + read_u16 font ((findNameTable font).2.1 + 4))
    (h6 : (findNameTable font).2.1 + read_u16 font ((findNameTable font).2.1 + 4) ≤
      (findNameTable font).2.1 + (findNameTable font).2.2)
    (h7 : (findNameTable font).2.1 + (findNameTable font).2.2 ≤ font.length) :
    (patch_font font family).toOption.map List.length =
      some (font.length +
        (6 + 12 * read_u16 font ((findNameTable font).2.1 + 2)) +
        ((findNameTable font).2.2 - read_u16 font ((findNameTable font).2.1 + 4))) ∧
    (patch_font font family).toOption.map
        (fun r => read_u16 r (font.length + 2)) =
      some (read_u16 font ((findNameTable font).2.1 + 2)) := by
  have hfmt : ¬ (read_u16 font (findNameTable font).2.1 ≠ 0) := by
    intro hc
    exact hc h2
  have hn := read_u16_lt_65536 font ((findNameTable font).2.1 + 2)
  simp only [patch_font]
  rw [if_neg h1, if_neg hfmt, h3]
  rw [if_neg (show ¬ (¬ ((true, true) : Bool × Bool).1 = true ∨
      ¬ ((true, true) : Bool × Bool).2 = true) from by simp)]
  simp only [Except.toOption, Option.map_some']
  set tdeo := (findNameTable font).1 with htdeo
  set offset := (findNameTable font).2.1 with hoffset
  set tablen := (findNameTable font).2.2 with htablen
  set n := read_u16 font (offset + 2) with hnrec
  set soff := read_u16 font (offset + 4) with hsoff
  have hslice : ((font.drop offset).take (6 + 12 * n)).length = 6 + 12 * n := by
    rw [List.length_take, List.length_drop]
    omega
  have hstr : ((font.drop (offset + soff)).take (offset + tablen - (offset + soff))).length =
      tablen - soff := by
    rw [List.length_take, List.length_drop]
    omega
  have hbase : ((font ++ (font.drop offset).take (6 + 12 * n)) ++
      (font.drop (offset + soff)).take (offset + tablen - (offset + soff))).length =
      font.length + (6 + 12 * n) + (tablen - soff) := by
    rw [List.length_append, List.length_append, hslice, hstr]
  have hu32len : ∀ x : Nat, (u32be x).length = 4 := fun _ => rfl
  have hu16len : ∀ x : Nat, (u16be x).length = 2 := fun _ => rfl
  constructor
  · rw [length_writeBytes, length_writeBytes, length_writeBytes, length_writeBytes, hbase]
  · rw [Option.some.injEq]
    set base := (font ++ (font.drop offset).take (6 + 12 * n)) ++
      (font.drop (offset + soff)).take (offset + tablen - (offset + soff)) with hbdef
    set W1 := writeBytes base (font.length + 2) (u16be (n % 65536)) with hW1
    set W2 := writeBytes W1 (font.length + 4)
      (u16be ((6 + 12 * (n % 65536)) % 65536)) with hW2
    set W3 := writeBytes W2 (tdeo + 8) (u32be (font.length % 4294967296)) with hW3
    unfold read_u16
    have e4a : byteAt (writeBytes W3 (tdeo + 12)
        (u32be ((W3.length - font.length) % 4294967296))) (font.length + 2) =
        byteAt W3 (font.length + 2) :=
      byteAt_writeBytes_ge _ W3 _ _ (by rw [hu32len]; omega)
    have e4b : byteAt (writeBytes W3 (tdeo + 12)
        (u32be ((W3.length - font.length) % 4294967296))) (font.length + 3) =
        byteAt W3 (font.length + 3) :=
      byteAt_writeBytes_ge _ W3 _ _ (by rw [hu32len]; omega)
    have e3a : byteAt W3 (font.length + 2) = byteAt W2 (font.length + 2) := by
      rw [hW3]
      exact byteAt_writeBytes_ge _ W2 _ _ (by rw [hu32len]; omega)
    have e3b : byteAt W3 (font.length + 3) = byteAt W2 (font.length + 3) := by
      rw [hW3]
      exact byteAt_writeBytes_ge _ W2 _ _ (by rw [hu32len]; omega)
    have e2a : byteAt W2 (font.length + 2) = byteAt W1 (font.length + 2) := by
      rw [hW2]
      exact byteAt_writeBytes_lt _ W1 _ _ (by omega)
    have e2b : byteAt W2 (font.length + 3) = byteAt W1 (font.length + 3) := by
      rw [hW2]
      exact byteAt_writeBytes_lt _ W1 _ _ (by omega)
    have hr := read_u16_writeBytes_u16be base (font.length + 2) (n % 65536)
      (by rw [hbase]; omega)
    rw [← hW1] at hr
    unfold read_u16 at hr
    have h23 : font.length + 2 + 1 = font.length + 3 := rfl
    rw [h23] at hr
    rw [e4a, e4b, e3a, e3b, e2a, e2b]
    omega

/-- Concrete instantiation of `C8_font_patch_idempotence` on `fontC8`. -/
theorem C8_font_patch_idempotence_witness :
    (patch_font fontC8 [65]).toOption.map List.length =
      some (fontC8.length +
        (6 + 12 * read_u16 fontC8 ((findNameTable fontC8).2.1 + 2)) +
        ((findNameTable fontC8).2.2 -
          read_u16 fontC8 ((findNameTable fontC8).2.1 + 4))) ∧
    (patch_font fontC8 [65]).toOption.map
        (fun r => read_u16 r (fontC8.length + 2)) =
      some (read_u16 fontC8 ((findNameTable fontC8).2.1 + 2)) :=
  C8_font_patch_idempotence fontC8 [65] (by decide) (by decide) (by decide)
    (by decide) (by decide) (by decide) (by decide)

end JustLatex
